import Mathlib

/-!
# ginkgoToHtml: the log parser of `main.go`

A shallow embedding of `parseTestReport` (main.go, lines 66-190) and the
properties of the report it returns, and of the header block that
`generateHTMLReport` (main.go, lines 192-488) writes.

Conventions of the embedding.

* A Go `string` is a Lean `String`.  The tokens the parser looks for are ASCII,
  so substring search over the text of a line agrees with Go's byte-wise
  `strings.Contains`, and `len` is `String.utf8ByteSize`.
* The input file is the list of its lines: the file is the lines in order, each
  followed by a line feed (the last line feed may be missing when the last line is
  not empty).  A line that ends with CR LF is given with its carriage return, which
  counts for the size of the line; the scanner drops it (`dropCR`), so the content
  lines that the parser sees are `lines.map dropCR`.
* `bufio.Scanner` (line 67: `ScanLines`, default buffer) is the list of the results
  of its successive `Scan` calls, see `scanResults`: a line of less than 65536
  bytes is returned without its trailing carriage return; at the first line of
  65536 bytes or more `Scan` returns false (`ErrTooLong`, which the program never
  looks at), the next call returns the bytes held in the buffer as a last token,
  and every later call returns false.
* `time.Now().Format(...)` is the parameter `now`.
* The counters are Go `int`s.  Each is incremented at most once per input line,
  so they stay far below `2^63` and are modelled by `Nat`.
* `generateHTMLReport` executes an `html/template`: static text is written
  verbatim, `{{if gt .FailedTests 0}}` is a test on the counter, a string value in
  HTML text context goes through the package's escaper, a counter is printed in
  decimal.  Only the header block of the template is embedded.
-/

namespace GinkgoToHtml

/-! ## Data model (main.go, lines 13-30) -/

/-- A single test case of the report: `type TestCase struct`. -/
structure TestCase where
  Title : String
  Status : String
  LogContent : String
  HasEnter : Bool
  DisplayTime : String
  deriving DecidableEq, Repr

/-- The entire test report: `type TestReport struct`. -/
structure TestReport where
  TotalTests : Nat
  PassedTests : Nat
  FailedTests : Nat
  SkippedTests : Nat
  TestCases : List TestCase
  GeneratedAt : String
  deriving DecidableEq, Repr

/-! ## Strings -/

/-- Whether `sub` occurs in `s` as a contiguous block, on character lists. -/
def containsChars (sub : List Char) : List Char → Bool
  | [] => sub.isPrefixOf []
  | c :: cs => sub.isPrefixOf (c :: cs) || containsChars sub cs

/-- Go's `strings.Contains(s, substr)`. -/
def Contains (s substr : String) : Bool :=
  containsChars substr.data s.data

/-- The separator token of main.go, lines 81 and 97: thirty dashes. -/
def separatorToken : String := "------------------------------"

/-- The zero value `TestCase{}`. -/
def TestCase.zero : TestCase :=
  { Title := "", Status := "", LogContent := "", HasEnter := false, DisplayTime := "" }

/-! ## The scanner (`bufio.NewScanner(file)`, line 67) -/

/-- The constant `bufio.MaxScanTokenSize`: the size the buffer of a scanner can
grow to. -/
def MaxScanTokenSize : Nat := 64 * 1024

/-- The function `dropCR` of `bufio`: a token loses one trailing carriage return. -/
def dropCR (s : String) : String :=
  if s.data.getLast? = some (Char.ofNat 13) then String.mk s.data.dropLast else s

/-- A line that does not fit the buffer: with `MaxScanTokenSize` bytes read and no
line feed among them, `Scan` gives up with `ErrTooLong`. -/
def tooLong (line : String) : Bool :=
  decide (MaxScanTokenSize ≤ line.utf8ByteSize)

/-- The longest run of whole characters at the head of a text that fits in `n`
bytes. -/
def takeBytes : Nat → List Char → List Char
  | _, [] => []
  | n, c :: cs => if c.utf8Size ≤ n then c :: takeBytes (n - c.utf8Size) cs else []

/-- The token that `Scan` returns on the call after `ErrTooLong`: the bytes of the
long line held in the full buffer, taken as a final line.  When the buffer ends
inside a multi-byte character the bytes of that character are left out here; they
are no part of any ASCII token, and this token never reaches a test case. -/
def bufferedToken (line : String) : String :=
  dropCR (String.mk (takeBytes MaxScanTokenSize line.data))

/-- The results of the successive calls of `scanner.Scan()` on a file with the given
lines: `some token` when the call returns true (`scanner.Text()` is the token),
`none` when it returns false.  Every call after the listed ones returns false. -/
def scanResults : List String → List (Option String)
  | [] => []
  | line :: rest =>
    if tooLong line then [none, some (bufferedToken line)]
    else some (dropCR line) :: scanResults rest

/-! ## The scan (main.go, lines 72-175) -/

/-- The local variables of `parseTokens` that live across loop iterations. -/
structure ScanState where
  report : TestReport
  currentCase : TestCase
  inTestCase : Bool
  buffer : String
  titleLines : List String
  inSummarizing : Bool
  deriving DecidableEq, Repr

/-- The first loop (lines 78-85), `for scanner.Scan()`, on the results that the
scanner still has to give: skip the lines before the first separator.  Returns the
value of `inTestCase` and the results left to the second loop. -/
def skipFirstSection : List (Option String) → Bool × List (Option String)
  | [] => (false, [])
  | none :: rest => (false, rest)
  | some line :: rest =>
    if Contains line separatorToken then (true, rest) else skipFirstSection rest

/-- The block "save the previous test case" (lines 99-118), which the source
repeats verbatim after the loop (lines 156-175). -/
def saveCase (st : ScanState) : ScanState :=
  if st.inTestCase && !st.inSummarizing then
    let currentCase : TestCase :=
      if st.titleLines.length > 0 then
        { st.currentCase with Title := String.intercalate ", " st.titleLines }
      else st.currentCase
    let currentCase : TestCase := { currentCase with LogContent := st.buffer }
    let report : TestReport :=
      { st.report with TestCases := st.report.TestCases ++ [currentCase] }
    let report : TestReport := { report with TotalTests := report.TotalTests + 1 }
    let report : TestReport :=
      if currentCase.Status = "pass" then
        { report with PassedTests := report.PassedTests + 1 }
      else if currentCase.Status = "fail" then
        { report with FailedTests := report.FailedTests + 1 }
      else if currentCase.Status = "skip" then
        { report with SkippedTests := report.SkippedTests + 1 }
      else report
    { st with currentCase := currentCase, report := report }
  else st

/-- One iteration of the second loop (lines 88-153). -/
def scanLine (st : ScanState) (line : String) : ScanState :=
  let st : ScanState :=
    if Contains line "Summarizing" then { st with inSummarizing := true } else st
  if Contains line separatorToken then
    let st := saveCase st
    { st with currentCase := TestCase.zero, buffer := "", titleLines := [],
              inTestCase := true }
  else if st.inSummarizing then st
  else
    let st : ScanState := { st with buffer := st.buffer ++ (line ++ "\n") }
    let st : ScanState :=
      if Contains line "[SKIPPED]" then
        { st with currentCase := { st.currentCase with Status := "skip" } }
      else if Contains line "[FAILED]" then
        { st with currentCase := { st.currentCase with Status := "fail" } }
      else st
    let st : ScanState :=
      if Contains line "> Enter" then
        { st with currentCase := { st.currentCase with HasEnter := true } }
      else st
    if !st.currentCase.HasEnter && line ≠ "" && !Contains line "[SKIPPED]"
        && !Contains line "/" then
      { st with titleLines := st.titleLines ++ [line] }
    else st

/-- The loop of lines 178-184 over the test cases from index `0` up: a case whose
status is empty becomes `"pass"` and increments the passed counter. -/
def defaultStatus : List TestCase → Nat → List TestCase × Nat
  | [], passed => ([], passed)
  | tc :: tcs, passed =>
    if tc.Status = "" then
      let r := defaultStatus tcs (passed + 1)
      ({ tc with Status := "pass" } :: r.1, r.2)
    else
      let r := defaultStatus tcs passed
      (tc :: r.1, r.2)

/-- The state at the head of the second loop: `var report TestReport` with its
timestamp, and the zero values of the other locals but `inTestCase`. -/
def initialState (now : String) (inTestCase : Bool) : ScanState :=
  { report := { TotalTests := 0, PassedTests := 0, FailedTests := 0, SkippedTests := 0,
                TestCases := [], GeneratedAt := now },
    currentCase := TestCase.zero,
    inTestCase := inTestCase,
    buffer := "",
    titleLines := [],
    inSummarizing := false }

/-- The tail of `parseTokens` (lines 177-187): default fill and total. -/
def finishReport (r : TestReport) : TestReport :=
  let filled := defaultStatus r.TestCases r.PassedTests
  let report : TestReport := { r with TestCases := filled.1, PassedTests := filled.2 }
  { report with
    TotalTests := report.PassedTests + report.FailedTests + report.SkippedTests }

/-- The second loop (lines 88-153), `for scanner.Scan()`, on the results that the
scanner still has to give: it runs its body on every token until `Scan` returns
false. -/
def scanLoop (st : ScanState) : List (Option String) → ScanState
  | [] => st
  | none :: _ => st
  | some line :: rest => scanLoop (scanLine st line) rest

/-- The report as the scan leaves it (line 175), before the default fill and the
recomputation of the total. -/
def scanReport (now : String) (lines : List String) : TestReport :=
  let first := skipFirstSection (scanResults lines)
  let st := scanLoop (initialState now first.1) first.2
  let st := saveCase st
  st.report

/-- The function `parseTestReport` (lines 66-190) on the lines of the file. -/
def parseTestReport (now : String) (lines : List String) : TestReport :=
  finishReport (scanReport now lines)

/-! ## The parser on a list of tokens

The same two loops when every `Scan` returns a token until the list is used up.
The report of a file is the report of a list of tokens, see `effectiveTokens`. -/

/-- The first loop on a list of tokens. -/
def skipTokens : List String → Bool × List String
  | [] => (false, [])
  | line :: rest =>
    if Contains line separatorToken then (true, rest) else skipTokens rest

/-- The whole function on a list of tokens. -/
def parseTokens (now : String) (lines : List String) : TestReport :=
  let first := skipTokens lines
  let st := first.2.foldl scanLine (initialState now first.1)
  let st := saveCase st
  finishReport st.report

/-- The tokens that the scanner returns before its first failure. -/
def readableTokens : List String → List String
  | [] => []
  | line :: rest => if tooLong line then [] else dropCR line :: readableTokens rest

/-- A list of tokens on which the two loops give the report of the file.  After a
long line met by the first loop, the second loop reads the buffered token alone: it
opens a case if it is a separator line without "Summarizing", and is lost
otherwise. -/
def effectiveTokens : List String → List String
  | [] => []
  | line :: rest =>
    if tooLong line then
      if Contains (bufferedToken line) separatorToken
          && !Contains (bufferedToken line) "Summarizing" then [bufferedToken line]
      else []
    else if Contains (dropCR line) separatorToken then dropCR line :: readableTokens rest
    else dropCR line :: effectiveTokens rest

/-! ## Segments, as the specification describes them -/

/-- A separator line: one that contains the separator token. -/
def isSeparator (line : String) : Bool := Contains line separatorToken

/-- A line that opens the summary block. -/
def isSummarizing (line : String) : Bool := Contains line "Summarizing"

/-- The content lines of the finalized segments of a log, in order of appearance.
The lines after the first separator line are cut before the first line containing
"Summarizing" and split at every separator line (empty chunks are kept); when a
"Summarizing" line was met, the chunk in progress at that line is not finalized. -/
def finalizedSegments (lines : List String) : List (List String) :=
  match lines.dropWhile (fun l => !isSeparator l) with
  | [] => []
  | _ :: body =>
    let chunks := (body.takeWhile (fun l => !isSummarizing l)).splitOnP isSeparator
    if body.any isSummarizing then chunks.dropLast else chunks

/-- The title candidate lines of a segment: the lines before the first line
containing the entry marker that are non-empty, contain no "[SKIPPED]" and
no "/". -/
def titleCandidates (seg : List String) : List String :=
  (seg.takeWhile (fun l => !Contains l "> Enter")).filter
    (fun l => l ≠ "" && !Contains l "[SKIPPED]" && !Contains l "/")

/-- The verbatim log of a segment: every line followed by a newline. -/
def segmentLog (seg : List String) : String :=
  String.join (seg.map (fun l => l ++ "\n"))

/-- The status field after the lines of a segment were scanned: each marker line
overwrites it, "[SKIPPED]" being tested first. -/
def markerStatus (seg : List String) : String :=
  seg.foldl (fun s l =>
    if Contains l "[SKIPPED]" then "skip" else if Contains l "[FAILED]" then "fail" else s) ""

/-- The test case built from the content lines of a segment, as it is appended to
the report. -/
def scannedCase (seg : List String) : TestCase :=
  { Title := String.intercalate ", " (titleCandidates seg),
    Status := markerStatus seg,
    LogContent := segmentLog seg,
    HasEnter := seg.any (fun l => Contains l "> Enter"),
    DisplayTime := "" }

/-- The default fill of lines 178-184 on one test case. -/
def fillStatus (tc : TestCase) : TestCase :=
  if tc.Status = "" then { tc with Status := "pass" } else tc

/-- The report with one more test case: the effect of lines 105-117. -/
def pushCase (r : TestReport) (tc : TestCase) : TestReport :=
  let report : TestReport :=
    { r with TestCases := r.TestCases ++ [tc], TotalTests := r.TotalTests + 1 }
  if tc.Status = "pass" then { report with PassedTests := report.PassedTests + 1 }
  else if tc.Status = "fail" then { report with FailedTests := report.FailedTests + 1 }
  else if tc.Status = "skip" then { report with SkippedTests := report.SkippedTests + 1 }
  else report

/-- The scan state inside a segment whose content lines so far are `cur`, before
any "Summarizing" line. -/
def pendingState (r : TestReport) (cur : List String) : ScanState :=
  { report := r,
    currentCase := { TestCase.zero with
      Status := markerStatus cur, HasEnter := cur.any (fun l => Contains l "> Enter") },
    inTestCase := true,
    buffer := segmentLog cur,
    titleLines := titleCandidates cur,
    inSummarizing := false }

/-- The segments still to be finalized when the content lines so far are `cur`
and the lines `rest` are left to scan. -/
def pendingSegments (cur rest : List String) : List (List String) :=
  let chunks := ((rest.takeWhile (fun l => !isSummarizing l)).splitOnP isSeparator).modifyHead
    (fun c => cur ++ c)
  if rest.any isSummarizing then chunks.dropLast else chunks

/-- The report after a list of test cases was appended one by one. -/
def pushCases (r : TestReport) (cs : List TestCase) : TestReport :=
  cs.foldl pushCase r

/-- The report of `var report TestReport` once its timestamp is set (line 70). -/
def emptyReport (now : String) : TestReport :=
  { TotalTests := 0, PassedTests := 0, FailedTests := 0, SkippedTests := 0,
    TestCases := [], GeneratedAt := now }

/-- The three subtotals count the appended cases by status. -/
def Counted (r : TestReport) : Prop :=
  r.PassedTests = r.TestCases.countP (fun tc => tc.Status = "pass") ∧
  r.FailedTests = r.TestCases.countP (fun tc => tc.Status = "fail") ∧
  r.SkippedTests = r.TestCases.countP (fun tc => tc.Status = "skip")

/-! ## Sample logs -/

/-- A log with a preamble and three cases: one failed, one skipped, one passed. -/
def statusLog : List String :=
  ["intro", separatorToken, "It works", "boom [FAILED]", "trace",
   separatorToken, "It is skipped", "[SKIPPED] not now", separatorToken, "It passes"]

/-- A log cut by a "Summarizing" line while its third segment is in progress. -/
def summaryLog : List String :=
  ["intro", separatorToken, "one", separatorToken, "two [FAILED]", separatorToken, "three"]

/-- The report on a list of tokens as the scan leaves it, before the default fill
and the recomputation of the total. -/
def scanTokensReport (now : String) (lines : List String) : TestReport :=
  (saveCase ((skipTokens lines).2.foldl scanLine
    (initialState now (skipTokens lines).1))).report

/-- A log without a "Summarizing" line that ends with a separator line. -/
def trailingLog : List String :=
  ["intro", separatorToken, "one", "[FAILED] x", separatorToken, "two", separatorToken]

/-- A log with separator lines, a "Summarizing" line and a case after it. -/
def leakLog : List String :=
  ["Summarizing nothing yet", separatorToken, "one", "---", separatorToken, "two",
   "Summarizing 1 Failure:", "[FAIL] two", separatorToken, "three"]

/-! ## The split-and-map description of the test cases -/

/-- The status of a chunk of lines taken on its own: decided by its last line that
contains "[SKIPPED]" or "[FAILED]" ("skip" if that line contains "[SKIPPED]",
"fail" otherwise), and "pass" when there is no such line. -/
def specStatus (chunk : List String) : String :=
  match chunk.reverse.find? (fun l => Contains l "[SKIPPED]" || Contains l "[FAILED]") with
  | none => "pass"
  | some m => if Contains m "[SKIPPED]" then "skip" else "fail"

/-- The test case of a chunk of lines taken on its own: title, status, log content
and entry-marker flag. -/
def specCase (chunk : List String) : TestCase :=
  { Title := String.intercalate ", " (titleCandidates chunk),
    Status := specStatus chunk,
    LogContent := String.join (chunk.map (fun l => l ++ "\n")),
    HasEnter := chunk.any (fun l => Contains l "> Enter"),
    DisplayTime := "" }

/-- The lines left when every line up to and including the first separator line
is dropped. -/
def afterFirstSeparator (lines : List String) : List String :=
  (lines.dropWhile (fun l => !isSeparator l)).drop 1

/-- Drop every line up to and including the first separator line, split the rest at
every separator line (empty chunks are kept), and map each chunk to its case. -/
def splitAndMap (lines : List String) : List TestCase :=
  ((afterFirstSeparator lines).splitOnP isSeparator).map specCase

/-- A log of three cases without a "Summarizing" line; the second has an entry
marker, the third none, so that flags and title lines could leak if they were not
reset. -/
def refinementLog : List String :=
  ["intro", separatorToken, "A [FAILED]", "> Enter", "body", separatorToken, "",
   separatorToken, "B", "[SKIPPED] later"]

/-- The replacement that `html/template` applies to one character of a value
printed in HTML text context. -/
def htmlEscapeChar (c : Char) : List Char :=
  if c = Char.ofNat 0 then [Char.ofNat 0xFFFD]
  else if c = Char.ofNat 34 then "&#34;".data
  else if c = Char.ofNat 38 then "&amp;".data
  else if c = Char.ofNat 39 then "&#39;".data
  else if c = Char.ofNat 43 then "&#43;".data
  else if c = Char.ofNat 60 then "&lt;".data
  else if c = Char.ofNat 62 then "&gt;".data
  else [c]

/-- The escaping of a string value printed in HTML text context. -/
def htmlEscape (s : String) : String :=
  String.mk ((s.data.map htmlEscapeChar).flatten)

/-- The failure badge of the header (main.go, line 366). -/
def failureBadge : String := "<span class=\"test-result\">Failed</span>"

/-- The text that executing the template writes for its header block (main.go, lines
365-386): the static text verbatim, the badge under `if gt .FailedTests 0`, the
timestamp escaped, the four counters in decimal. -/
def generateHTMLReportHeader (report : TestReport) : String :=
  "    <div class=\"header\">\n        <h1>Test Report "
  ++ (if report.FailedTests > 0 then "<span class=\"test-result\">Failed</span>" else "")
  ++ "</h1>\n        <p>Generated at: "
  ++ htmlEscape report.GeneratedAt
  ++ "</p>\n        <div class=\"summary-stats\">\n            <div class=\"stat-item stat-total\">\n                <span class=\"stat-label\">Total:</span>\n                <span class=\"stat-value\">"
  ++ toString report.TotalTests
  ++ "</span>\n            </div>\n            <div class=\"stat-item stat-passed\">\n                <span class=\"stat-label\">Passed:</span>\n                <span class=\"stat-value\">"
  ++ toString report.PassedTests
  ++ "</span>\n            </div>\n            <div class=\"stat-item stat-failed\">\n                <span class=\"stat-label\">Failed:</span>\n                <span class=\"stat-value\">"
  ++ toString report.FailedTests
  ++ "</span>\n            </div>\n            <div class=\"stat-item stat-skipped\">\n                <span class=\"stat-label\">Skipped:</span>\n                <span class=\"stat-value\">"
  ++ toString report.SkippedTests
  ++ "</span>\n            </div>\n        </div>\n    </div>\n"

/-- A text has no double quote followed by the letter t and does not end with a
double quote. -/
def quoteFree (z : List Char) : Bool :=
  !containsChars [Char.ofNat 34, Char.ofNat 116] z && !(z.getLast? == some (Char.ofNat 34))

/-- A report without failure, with a timestamp that tries to pass for the badge. -/
def greenReport : TestReport :=
  { TotalTests := 12, PassedTests := 10, FailedTests := 0, SkippedTests := 2, TestCases := [],
    GeneratedAt := "<span class=\"test-result\">Failed</span>" }

/-- A report with two failures. -/
def redReport : TestReport :=
  { TotalTests := 3, PassedTests := 1, FailedTests := 2, SkippedTests := 0, TestCases := [],
    GeneratedAt := "2024-01-01 10:00:00" }

/-! ## Lines that do not fit the buffer of the scanner -/

/-- A line of 65536 slashes: one byte too long for the scanner. -/
def longLine : String := String.mk (List.replicate MaxScanTokenSize (Char.ofNat 47))

/-- A log with a long line in its first segment, followed by a second segment. -/
def cutSeparatorLog : List String := [separatorToken, "one", longLine, separatorToken, "two"]

/-- A log that ends with a separator line, after a long line. -/
def cutTrailingLog : List String := [separatorToken, "x", longLine, separatorToken]

/-- A log with a long line in its second segment, followed by a third segment. -/
def cutSummaryLog : List String :=
  [separatorToken, "one", separatorToken, "two", longLine, separatorToken, "three"]

theorem segmentLog_snoc (cur : List String) (l : String) :
    segmentLog (cur ++ [l]) = segmentLog cur ++ (l ++ "\n") := by
  simp [segmentLog, String.join, List.foldl_append]

theorem markerStatus_snoc (cur : List String) (l : String) :
    markerStatus (cur ++ [l]) =
      if Contains l "[SKIPPED]" then "skip"
      else if Contains l "[FAILED]" then "fail" else markerStatus cur := by
  simp [markerStatus, List.foldl_append]

theorem takeWhile_snoc {α : Type} (p : α → Bool) (xs : List α) (x : α) :
    (xs ++ [x]).takeWhile p =
      if xs.all p && p x then xs ++ [x] else xs.takeWhile p := by
  induction xs with
  | nil => cases h : p x <;> simp [List.takeWhile, h]
  | cons y ys ih =>
    rw [List.cons_append, List.takeWhile_cons, List.takeWhile_cons, ih, List.all_cons]
    cases hy : p y
    · simp
    · by_cases h : (ys.all p && p x) = true
      · simp [h]
      · simp [h]

theorem titleCandidates_snoc (cur : List String) (l : String) :
    titleCandidates (cur ++ [l]) =
      if !(cur.any (fun l => Contains l "> Enter") || Contains l "> Enter") && l ≠ ""
          && !Contains l "[SKIPPED]" && !Contains l "/" then
        titleCandidates cur ++ [l]
      else titleCandidates cur := by
  unfold titleCandidates
  rw [takeWhile_snoc]
  have hall : cur.all (fun l => !Contains l "> Enter")
      = !cur.any (fun l => Contains l "> Enter") := by
    induction cur with
    | nil => rfl
    | cons y ys ih => simp [ih]
  rw [hall]
  cases hany : cur.any (fun l => Contains l "> Enter")
  · have htw : cur.takeWhile (fun l => !Contains l "> Enter") = cur := by
      rw [List.takeWhile_eq_self_iff]
      intro x hx
      have := List.any_eq_false.mp hany x hx
      simpa using this
    cases he : Contains l "> Enter"
    · rw [htw]
      simp only [Bool.or_false, Bool.not_false, Bool.true_and, if_true, Bool.and_self]
      rw [List.filter_append]
      by_cases hq : (decide (l ≠ "") && !Contains l "[SKIPPED]" && !Contains l "/") = true
      · rw [if_pos hq]
        simp only [List.filter, hq]
      · rw [if_neg hq]
        rw [Bool.not_eq_true] at hq
        simp only [List.filter, hq, List.append_nil]
    · simp
  · simp

theorem saveCase_pendingState (r : TestReport) (cur : List String) :
    saveCase (pendingState r cur) =
      { pendingState r cur with
        report := pushCase r (scannedCase cur), currentCase := scannedCase cur } := by
  have hcase : (if (titleCandidates cur).length > 0 then
        { (pendingState r cur).currentCase with
          Title := String.intercalate ", " (titleCandidates cur) }
      else (pendingState r cur).currentCase) =
      { (pendingState r cur).currentCase with
        Title := String.intercalate ", " (titleCandidates cur) } := by
    cases h : titleCandidates cur with
    | nil => rfl
    | cons a t => simp
  unfold saveCase
  simp only [pendingState, Bool.not_false, Bool.and_self, if_true] at hcase ⊢
  rw [hcase]
  simp only [scannedCase, pushCase, TestCase.zero]

theorem scanLine_separator (r : TestReport) (cur : List String) (l : String)
    (hsep : isSeparator l = true) (hsum : isSummarizing l = false) :
    scanLine (pendingState r cur) l = pendingState (pushCase r (scannedCase cur)) [] := by
  unfold isSeparator at hsep
  unfold isSummarizing at hsum
  unfold scanLine
  simp only [hsep, hsum, if_true, Bool.false_eq_true, if_false, saveCase_pendingState]
  rfl

theorem scanLine_content (r : TestReport) (cur : List String) (l : String)
    (hsep : isSeparator l = false) (hsum : isSummarizing l = false) :
    scanLine (pendingState r cur) l = pendingState r (cur ++ [l]) := by
  unfold isSeparator at hsep
  unfold isSummarizing at hsum
  unfold scanLine
  simp only [hsep, hsum, Bool.false_eq_true, if_false]
  cases h1 : Contains l "[SKIPPED]" <;> cases h2 : Contains l "[FAILED]" <;>
    cases h3 : Contains l "> Enter" <;> cases h4 : cur.any (fun l => Contains l "> Enter") <;>
    simp [pendingState, segmentLog_snoc, markerStatus_snoc, titleCandidates_snoc,
      h1, h2, h3, h4, TestCase.zero] <;>
    split <;> rfl

theorem saveCase_summarizing (st : ScanState) (h : st.inSummarizing = true) :
    saveCase st = st := by
  simp [saveCase, h]

theorem scanLine_summarizing (st : ScanState) (l : String) (h : st.inSummarizing = true) :
    (scanLine st l).inSummarizing = true ∧ (scanLine st l).report = st.report := by
  unfold scanLine
  cases hsum : Contains l "Summarizing" <;> cases hsep : Contains l separatorToken <;>
    simp [h, saveCase]

theorem scanLine_isSummarizing (st : ScanState) (l : String) (h : isSummarizing l = true) :
    (scanLine st l).inSummarizing = true ∧ (scanLine st l).report = st.report := by
  unfold isSummarizing at h
  unfold scanLine
  cases hsep : Contains l separatorToken <;> simp [h, saveCase]

theorem scan_summarizing (ls : List String) (st : ScanState) (h : st.inSummarizing = true) :
    (ls.foldl scanLine st).inSummarizing = true ∧ (ls.foldl scanLine st).report = st.report := by
  induction ls generalizing st with
  | nil => exact ⟨h, rfl⟩
  | cons l ls ih =>
    have h1 := scanLine_summarizing st l h
    have h2 := ih (scanLine st l) h1.1
    exact ⟨h2.1, h2.2.trans h1.2⟩

theorem pendingSegments_content (cur rest : List String) (l : String)
    (hsep : isSeparator l = false) (hsum : isSummarizing l = false) :
    pendingSegments cur (l :: rest) = pendingSegments (cur ++ [l]) rest := by
  have hmod : ∀ X : List (List String),
      (X.modifyHead (List.cons l)).modifyHead (fun c => cur ++ c)
        = X.modifyHead (fun c => (cur ++ [l]) ++ c) := by
    intro X
    cases X with
    | nil => rfl
    | cons a t => simp [List.modifyHead]
  simp only [pendingSegments, List.takeWhile_cons, hsum, Bool.not_false, if_true,
    List.splitOnP_cons, hsep, Bool.false_eq_true, if_false, List.any_cons, Bool.false_or, hmod]

theorem pendingSegments_separator (cur rest : List String) (l : String)
    (hsep : isSeparator l = true) (hsum : isSummarizing l = false) :
    pendingSegments cur (l :: rest) = cur :: pendingSegments [] rest := by
  have hid : ∀ X : List (List String), X.modifyHead (fun c => [] ++ c) = X := by
    intro X
    cases X with
    | nil => rfl
    | cons a t => simp [List.modifyHead]
  have hne := List.splitOnP_ne_nil isSeparator (rest.takeWhile (fun l => !isSummarizing l))
  simp only [pendingSegments, List.takeWhile_cons, hsum, Bool.not_false, if_true,
    List.splitOnP_cons, hsep, List.any_cons, Bool.false_or, hid, List.modifyHead_cons,
    List.append_nil]
  split
  · exact List.dropLast_cons_of_ne_nil hne
  · rfl

theorem scan_pending (rest : List String) (r : TestReport) (cur : List String) :
    (saveCase (rest.foldl scanLine (pendingState r cur))).report =
      pushCases r ((pendingSegments cur rest).map scannedCase) := by
  induction rest generalizing r cur with
  | nil =>
    simp [saveCase_pendingState, pendingSegments, pushCases, List.splitOnP_nil]
  | cons l rest ih =>
    rw [List.foldl_cons]
    cases hsum : isSummarizing l
    · cases hsep : isSeparator l
      · rw [scanLine_content r cur l hsep hsum, ih, pendingSegments_content cur rest l hsep hsum]
      · rw [scanLine_separator r cur l hsep hsum, ih,
          pendingSegments_separator cur rest l hsep hsum]
        rfl
    · have h1 := scanLine_isSummarizing (pendingState r cur) l hsum
      have h2 := scan_summarizing rest _ h1.1
      rw [saveCase_summarizing _ h2.1, h2.2, h1.2]
      simp [pendingSegments, hsum, pushCases, List.splitOnP_nil, pendingState]

theorem skipTokens_eq (lines : List String) :
    skipTokens lines =
      match lines.dropWhile (fun l => !isSeparator l) with
      | [] => (false, [])
      | _ :: body => (true, body) := by
  induction lines with
  | nil => rfl
  | cons l ls ih =>
    cases h : isSeparator l
    · have h2 : Contains l separatorToken = false := h
      simp only [skipTokens, h2, Bool.false_eq_true, if_false, ih, List.dropWhile_cons, h,
        Bool.not_false, if_true]
    · have h2 : Contains l separatorToken = true := h
      simp only [skipTokens, h2, if_true, List.dropWhile_cons, h, Bool.not_true,
        Bool.false_eq_true, if_false]

theorem pendingSegments_nil (body : List String) :
    pendingSegments [] body =
      if body.any isSummarizing then
        ((body.takeWhile (fun l => !isSummarizing l)).splitOnP isSeparator).dropLast
      else (body.takeWhile (fun l => !isSummarizing l)).splitOnP isSeparator := by
  have hid : ∀ X : List (List String), X.modifyHead (fun c => [] ++ c) = X := by
    intro X
    cases X with
    | nil => rfl
    | cons a t => simp [List.modifyHead]
  simp only [pendingSegments, hid]

/-- The report is the tail of the function applied to the cases of the finalized
segments, appended in order to the empty report. -/
theorem parseTokens_eq (now : String) (lines : List String) :
    parseTokens now lines =
      finishReport (pushCases (emptyReport now) ((finalizedSegments lines).map scannedCase)) := by
  unfold parseTokens finalizedSegments
  rw [skipTokens_eq]
  cases h : lines.dropWhile (fun l => !isSeparator l) with
  | nil =>
    simp only [List.foldl_nil, List.map_nil, pushCases]
    rfl
  | cons s body =>
    have hinit : initialState now true = pendingState (emptyReport now) [] := rfl
    simp only [hinit, scan_pending, pendingSegments_nil]

theorem pushCase_TestCases (r : TestReport) (tc : TestCase) :
    (pushCase r tc).TestCases = r.TestCases ++ [tc] := by
  unfold pushCase
  split
  · rfl
  · split
    · rfl
    · split <;> rfl

theorem pushCases_TestCases (cs : List TestCase) (r : TestReport) :
    (pushCases r cs).TestCases = r.TestCases ++ cs := by
  induction cs generalizing r with
  | nil => simp [pushCases]
  | cons c cs ih =>
    have h := ih (pushCase r c)
    simp only [pushCases, List.foldl_cons] at h ⊢
    rw [h, pushCase_TestCases, List.append_assoc]
    rfl

theorem defaultStatus_fst (tcs : List TestCase) (passed : Nat) :
    (defaultStatus tcs passed).1 = tcs.map fillStatus := by
  induction tcs generalizing passed with
  | nil => rfl
  | cons tc tcs ih =>
    by_cases h : tc.Status = ""
    · simp [defaultStatus, fillStatus, h, ih]
    · simp [defaultStatus, fillStatus, h, ih]

theorem defaultStatus_snd (tcs : List TestCase) (passed : Nat) :
    (defaultStatus tcs passed).2 = passed + tcs.countP (fun tc => tc.Status = "") := by
  induction tcs generalizing passed with
  | nil => rfl
  | cons tc tcs ih =>
    by_cases h : tc.Status = ""
    · simp [defaultStatus, h, ih, List.countP_cons]
      omega
    · simp [defaultStatus, h, ih, List.countP_cons]

theorem finishReport_TestCases (r : TestReport) :
    (finishReport r).TestCases = r.TestCases.map fillStatus := by
  simp [finishReport, defaultStatus_fst]

/-- The test cases of the report: one per finalized segment, in order. -/
theorem parseTokens_TestCases (now : String) (lines : List String) :
    (parseTokens now lines).TestCases =
      (finalizedSegments lines).map (fun seg => fillStatus (scannedCase seg)) := by
  rw [parseTokens_eq, finishReport_TestCases, pushCases_TestCases]
  simp [emptyReport]

theorem pushCase_Counted (r : TestReport) (tc : TestCase) (h : Counted r) :
    Counted (pushCase r tc) := by
  obtain ⟨h1, h2, h3⟩ := h
  unfold Counted pushCase
  by_cases hp : tc.Status = "pass"
  · simp [hp, h1, h2, h3, List.countP_append, List.countP_cons]
  · by_cases hf : tc.Status = "fail"
    · simp [hf, h1, h2, h3, List.countP_append, List.countP_cons]
    · by_cases hs : tc.Status = "skip"
      · simp [hs, h1, h2, h3, List.countP_append, List.countP_cons]
      · simp [hp, hf, hs, h1, h2, h3, List.countP_append, List.countP_cons]

theorem pushCases_Counted (cs : List TestCase) (r : TestReport) (h : Counted r) :
    Counted (pushCases r cs) := by
  induction cs generalizing r with
  | nil => exact h
  | cons c cs ih => exact ih (pushCase r c) (pushCase_Counted r c h)

theorem countP_fillStatus_pass (tcs : List TestCase) :
    (tcs.map fillStatus).countP (fun tc => tc.Status = "pass") =
      tcs.countP (fun tc => tc.Status = "pass") + tcs.countP (fun tc => tc.Status = "") := by
  induction tcs with
  | nil => rfl
  | cons tc tcs ih =>
    simp only [List.map_cons, List.countP_cons, ih]
    by_cases h : tc.Status = ""
    · simp [fillStatus, h]
      omega
    · by_cases hp : tc.Status = "pass"
      · simp [fillStatus, h, hp]
        omega
      · simp [fillStatus, h, hp]

theorem countP_fillStatus_other (tcs : List TestCase) (s : String) (hs : s ≠ "")
    (hp : s ≠ "pass") :
    (tcs.map fillStatus).countP (fun tc => tc.Status = s) =
      tcs.countP (fun tc => tc.Status = s) := by
  induction tcs with
  | nil => rfl
  | cons tc tcs ih =>
    simp only [List.map_cons, List.countP_cons, ih]
    by_cases h : tc.Status = ""
    · have h1 : ¬ ("pass" = s) := fun e => hp e.symm
      have h2 : ¬ ("" = s) := fun e => hs e.symm
      simp [fillStatus, h, h1, h2]
    · simp [fillStatus, h]

theorem finishReport_Counted (r : TestReport) (h : Counted r) : Counted (finishReport r) := by
  obtain ⟨h1, h2, h3⟩ := h
  refine ⟨?_, ?_, ?_⟩
  · rw [finishReport_TestCases, countP_fillStatus_pass, ← h1]
    simp [finishReport, defaultStatus_snd]
  · rw [finishReport_TestCases, countP_fillStatus_other _ _ (by decide) (by decide), ← h2]
    rfl
  · rw [finishReport_TestCases, countP_fillStatus_other _ _ (by decide) (by decide), ← h3]
    rfl

theorem parseTokens_Counted (now : String) (lines : List String) :
    Counted (parseTokens now lines) := by
  rw [parseTokens_eq]
  apply finishReport_Counted
  apply pushCases_Counted
  exact ⟨rfl, rfl, rfl⟩

theorem skipTokens_append_of_separator (pre rest : List String)
    (h : ∃ l ∈ pre, Contains l separatorToken = true) :
    skipTokens (pre ++ rest) = (true, (skipTokens pre).2 ++ rest) := by
  induction pre with
  | nil => simp at h
  | cons x xs ih =>
    cases hx : Contains x separatorToken
    · have h2 : ∃ l ∈ xs, Contains l separatorToken = true := by
        obtain ⟨l, hl, hc⟩ := h
        rcases List.mem_cons.mp hl with rfl | hl
        · rw [hx] at hc
          exact absurd hc (by decide)
        · exact ⟨l, hl, hc⟩
      rw [List.cons_append]
      simp only [skipTokens, hx, Bool.false_eq_true, if_false, ih h2]
    · rw [List.cons_append]
      simp only [skipTokens, hx, if_true]

theorem skipTokens_append_of_no_separator (p rest : List String)
    (h : ∀ l ∈ p, Contains l separatorToken = false) :
    skipTokens (p ++ rest) = skipTokens rest := by
  induction p with
  | nil => rfl
  | cons x xs ih =>
    have hx := h x (List.mem_cons_self x xs)
    rw [List.cons_append]
    simp only [skipTokens, hx, Bool.false_eq_true, if_false]
    exact ih (fun l hl => h l (List.mem_cons_of_mem x hl))

theorem finalizedSegments_after_summary :
    finalizedSegments [separatorToken, "first", separatorToken, "second [FAILED]",
      separatorToken, "third", separatorToken, "Summarizing 1 Failure", separatorToken,
      "fourth"] = [["first"], ["second [FAILED]"], ["third"]] := by
  decide

theorem fillStatus_LogContent (tc : TestCase) : (fillStatus tc).LogContent = tc.LogContent := by
  unfold fillStatus
  split <;> rfl

theorem takeWhile_append_stop {α : Type} (p : α → Bool) (xs ys : List α) (x : α)
    (hx : p x = false) : (xs ++ x :: ys).takeWhile p = xs.takeWhile p := by
  induction xs with
  | nil => simp [List.takeWhile, hx]
  | cons y t ih =>
    rw [List.cons_append, List.takeWhile_cons, List.takeWhile_cons, ih]

theorem finalizedSegments_cons (x : String) (L : List String) :
    finalizedSegments (x :: L) =
      if isSeparator x then pendingSegments [] L else finalizedSegments L := by
  cases hx : isSeparator x
  · simp [finalizedSegments, List.dropWhile_cons, hx]
  · simp [finalizedSegments, List.dropWhile_cons, hx, pendingSegments_nil]

theorem pendingSegments_head (seg tail cur : List String)
    (hseg : ∀ l ∈ seg, isSeparator l = false ∧ isSummarizing l = false)
    (htail : tail = [] ∨
      ∃ s t, tail = s :: t ∧ isSeparator s = true ∧ isSummarizing s = false) :
    (pendingSegments cur (seg ++ tail))[0]? = some (cur ++ seg) := by
  induction seg generalizing cur with
  | nil =>
    rcases htail with rfl | ⟨s, t, rfl, hs, hns⟩
    · simp [pendingSegments, List.splitOnP_nil]
    · rw [List.nil_append, pendingSegments_separator cur t s hs hns]
      simp
  | cons x xs ih =>
    have hx := hseg x (List.mem_cons_self x xs)
    rw [List.cons_append, pendingSegments_content cur _ x hx.1 hx.2,
      ih _ (fun l hl => hseg l (List.mem_cons_of_mem x hl))]
    simp

theorem pendingSegments_skip (xs rest cur : List String) (s : String) (k : Nat)
    (hxs : ∀ l ∈ xs, isSummarizing l = false)
    (hs : isSeparator s = true) (hns : isSummarizing s = false) :
    (pendingSegments cur (xs ++ s :: rest))[xs.countP isSeparator + 1 + k]? =
      (pendingSegments [] rest)[k]? := by
  induction xs generalizing cur with
  | nil =>
    rw [List.nil_append, pendingSegments_separator cur rest s hs hns]
    simp [Nat.add_comm 1 k]
  | cons x t ih =>
    have hx := hxs x (List.mem_cons_self x t)
    have ht : ∀ l ∈ t, isSummarizing l = false := fun l hl => hxs l (List.mem_cons_of_mem x hl)
    cases hsep : isSeparator x
    · rw [List.cons_append, pendingSegments_content cur _ x hsep hx,
        List.countP_cons_of_neg _ _ (by simp [hsep]), ih _ ht]
    · rw [List.cons_append, pendingSegments_separator cur _ x hsep hx,
        List.countP_cons_of_pos _ _ hsep]
      have : t.countP isSeparator + 1 + 1 + k = (t.countP isSeparator + 1 + k) + 1 := by omega
      rw [this, List.getElem?_cons_succ, ih _ ht]

/-- The segment that `finalizedSegments` puts at the index of its opening
separator is the run of the lines between that separator and the next one (or the
end of the log). -/
theorem finalizedSegments_at_separator (a seg tail : List String) (s : String)
    (hs : isSeparator s = true)
    (hseg : ∀ l ∈ seg, isSeparator l = false)
    (hsum : ∀ l ∈ a ++ s :: seg, isSummarizing l = false)
    (htail : tail = [] ∨
      ∃ s2 t, tail = s2 :: t ∧ isSeparator s2 = true ∧ isSummarizing s2 = false) :
    (finalizedSegments (a ++ s :: (seg ++ tail)))[a.countP isSeparator]? = some seg := by
  have hseg2 : ∀ l ∈ seg, isSeparator l = false ∧ isSummarizing l = false := by
    intro l hl
    exact ⟨hseg l hl, hsum l (by simp [hl])⟩
  have hns : isSummarizing s = false := hsum s (by simp)
  induction a with
  | nil =>
    rw [List.nil_append, finalizedSegments_cons, hs]
    simpa using pendingSegments_head seg tail [] hseg2 htail
  | cons x t ih =>
    have ht : ∀ l ∈ t ++ s :: seg, isSummarizing l = false := by
      intro l hl
      exact hsum l (by rw [List.cons_append]; exact List.mem_cons_of_mem x hl)
    rw [List.cons_append, finalizedSegments_cons]
    cases hsep : isSeparator x
    · rw [List.countP_cons_of_neg _ _ (by simp [hsep])]
      simpa using ih ht
    · rw [List.countP_cons_of_pos _ _ hsep]
      have h0 := pendingSegments_skip t (seg ++ tail) [] s 0
        (fun l hl => ht l (by simp [hl])) hs hns
      simp only [if_true, Nat.add_zero] at h0 ⊢
      rw [h0]
      simpa using pendingSegments_head seg tail [] hseg2 htail

theorem markerStatus_values (seg : List String) :
    markerStatus seg = "" ∨ markerStatus seg = "fail" ∨ markerStatus seg = "skip" := by
  induction seg using List.reverseRecOn with
  | nil => exact Or.inl rfl
  | append_singleton xs x ih =>
    rw [markerStatus_snoc]
    split
    · exact Or.inr (Or.inr rfl)
    · split
      · exact Or.inr (Or.inl rfl)
      · exact ih

theorem fillStatus_scannedCase_Status (seg : List String) :
    (fillStatus (scannedCase seg)).Status =
      if markerStatus seg = "" then "pass" else markerStatus seg := by
  unfold fillStatus
  by_cases h : markerStatus seg = ""
  · simp [scannedCase, h]
  · simp [scannedCase, h]

theorem finalizedSegments_cut (pre post : List String) (s : String)
    (hpre : ∃ l ∈ pre, isSeparator l = true)
    (hns : ∀ l ∈ pre, isSummarizing l = false)
    (hs : isSummarizing s = true) :
    finalizedSegments (pre ++ s :: post) = (finalizedSegments pre).dropLast := by
  induction pre with
  | nil => simp at hpre
  | cons x t ih =>
    have ht : ∀ l ∈ t, isSummarizing l = false := fun l hl => hns l (List.mem_cons_of_mem x hl)
    rw [List.cons_append, finalizedSegments_cons, finalizedSegments_cons]
    cases hx : isSeparator x
    · have h2 : ∃ l ∈ t, isSeparator l = true := by
        obtain ⟨l, hl, hc⟩ := hpre
        rcases List.mem_cons.mp hl with rfl | hl
        · rw [hx] at hc
          exact absurd hc (by decide)
        · exact ⟨l, hl, hc⟩
      simpa using ih h2 ht
    · have htw : t.takeWhile (fun l => !isSummarizing l) = t := by
        rw [List.takeWhile_eq_self_iff]
        intro l hl
        simp [ht l hl]
      have hany : t.any isSummarizing = false := by
        rw [List.any_eq_false]
        intro l hl
        simp [ht l hl]
      have hany2 : (t ++ s :: post).any isSummarizing = true := by
        rw [List.any_eq_true]
        exact ⟨s, by simp, hs⟩
      have hstop : (t ++ s :: post).takeWhile (fun l => !isSummarizing l)
          = t.takeWhile (fun l => !isSummarizing l) :=
        takeWhile_append_stop (fun l => !isSummarizing l) t post s (by simp [hs])
      simp only [if_true, pendingSegments_nil, hany, hany2, Bool.false_eq_true, if_false,
        hstop, htw]

theorem parseTokens_scanTokensReport (now : String) (lines : List String) :
    parseTokens now lines = finishReport (scanTokensReport now lines) := rfl

theorem scanTokensReport_eq (now : String) (lines : List String) :
    scanTokensReport now lines =
      pushCases (emptyReport now) ((finalizedSegments lines).map scannedCase) := by
  unfold scanTokensReport finalizedSegments
  rw [skipTokens_eq]
  cases h : lines.dropWhile (fun l => !isSeparator l) with
  | nil =>
    simp only [List.foldl_nil, List.map_nil, pushCases]
    rfl
  | cons s body =>
    have hinit : initialState now true = pendingState (emptyReport now) [] := rfl
    simp only [hinit, scan_pending, pendingSegments_nil]

theorem pushCase_TotalTests (r : TestReport) (tc : TestCase) :
    (pushCase r tc).TotalTests = r.TotalTests + 1 := by
  unfold pushCase
  split
  · rfl
  · split
    · rfl
    · split <;> rfl

theorem pushCases_TotalTests (cs : List TestCase) (r : TestReport) :
    (pushCases r cs).TotalTests = r.TotalTests + cs.length := by
  induction cs generalizing r with
  | nil => simp [pushCases]
  | cons c cs ih =>
    have h := ih (pushCase r c)
    simp only [pushCases, List.foldl_cons] at h ⊢
    rw [h, pushCase_TotalTests, List.length_cons]
    omega

theorem countP_three_statuses (tcs : List TestCase)
    (h : ∀ tc ∈ tcs, tc.Status = "pass" ∨ tc.Status = "fail" ∨ tc.Status = "skip") :
    tcs.countP (fun tc => tc.Status = "pass") + tcs.countP (fun tc => tc.Status = "fail")
      + tcs.countP (fun tc => tc.Status = "skip") = tcs.length := by
  induction tcs with
  | nil => rfl
  | cons tc t ih =>
    have iht := ih (fun x hx => h x (List.mem_cons_of_mem tc hx))
    simp only [List.countP_cons, List.length_cons]
    rcases h tc (List.mem_cons_self tc t) with hs | hs | hs
    · simp [hs]
      omega
    · simp [hs]
      omega
    · simp [hs]
      omega

theorem parseTokens_Status (now : String) (lines : List String) (tc : TestCase)
    (h : tc ∈ (parseTokens now lines).TestCases) :
    tc.Status = "pass" ∨ tc.Status = "fail" ∨ tc.Status = "skip" := by
  rw [parseTokens_TestCases, List.mem_map] at h
  obtain ⟨seg, _, rfl⟩ := h
  rw [fillStatus_scannedCase_Status]
  rcases markerStatus_values seg with h0 | h1 | h2
  · simp [h0]
  · simp [h1]
  · simp [h2]

theorem length_splitOnP {α : Type} (p : α → Bool) (xs : List α) :
    (xs.splitOnP p).length = xs.countP p + 1 := by
  induction xs with
  | nil => simp [List.splitOnP_nil]
  | cons x t ih =>
    rw [List.splitOnP_cons]
    cases hx : p x
    · simp [ih, hx]
    · simp [ih, hx]

theorem length_finalizedSegments (lines : List String)
    (hns : ∀ l ∈ lines, isSummarizing l = false) :
    (finalizedSegments lines).length = lines.countP isSeparator := by
  induction lines with
  | nil => rfl
  | cons x t ih =>
    have ht : ∀ l ∈ t, isSummarizing l = false := fun l hl => hns l (List.mem_cons_of_mem x hl)
    rw [finalizedSegments_cons]
    cases hx : isSeparator x
    · simp [ih ht, hx]
    · have htw : t.takeWhile (fun l => !isSummarizing l) = t := by
        rw [List.takeWhile_eq_self_iff]
        intro l hl
        simp [ht l hl]
      have hany : t.any isSummarizing = false := by
        rw [List.any_eq_false]
        intro l hl
        simp [ht l hl]
      simp [pendingSegments_nil, hany, htw, length_splitOnP, hx]

theorem isPrefixOf_append_stop (P A Y : List Char) (c : Char) (hc : c ∉ P)
    (h : P.isPrefixOf (A ++ c :: Y) = true) : P.isPrefixOf A = true := by
  induction A generalizing P with
  | nil =>
    cases P with
    | nil => rfl
    | cons p P' =>
      simp only [List.nil_append, List.isPrefixOf, Bool.and_eq_true, beq_iff_eq] at h
      exact absurd (List.mem_cons.mpr (Or.inl h.1.symm)) hc
  | cons a A' ih =>
    cases P with
    | nil => rfl
    | cons p P' =>
      simp only [List.cons_append, List.isPrefixOf, Bool.and_eq_true, beq_iff_eq] at h ⊢
      exact ⟨h.1, ih P' (fun hm => hc (List.mem_cons_of_mem p hm)) h.2⟩

theorem containsChars_nil_of_ne_nil (P : List Char) (hP : P ≠ []) :
    containsChars P [] = false := by
  cases P with
  | nil => exact absurd rfl hP
  | cons p P' => rfl

theorem containsChars_append_stop (P X Y : List Char) (c : Char) (hP : P ≠ []) (hc : c ∉ P)
    (h : containsChars P (X ++ c :: Y) = true) :
    containsChars P X = true ∨ containsChars P Y = true := by
  induction X with
  | nil =>
    simp only [List.nil_append, containsChars, Bool.or_eq_true] at h
    rcases h with h | h
    · have h2 := isPrefixOf_append_stop P [] Y c hc h
      cases P with
      | nil => exact absurd rfl hP
      | cons p P' => simp [List.isPrefixOf] at h2
    · exact Or.inr h
  | cons x X' ih =>
    simp only [List.cons_append, containsChars, Bool.or_eq_true] at h ⊢
    rcases h with h | h
    · exact Or.inl (Or.inl (isPrefixOf_append_stop P (x :: X') Y c hc h))
    · rcases ih h with h2 | h2
      · exact Or.inl (Or.inr h2)
      · exact Or.inr h2

theorem containsChars_lines (P : List Char) (seg : List String) (hP : P ≠ [])
    (hc : '\n' ∉ P)
    (h : containsChars P ((seg.map (fun l => l.data ++ ['\n'])).flatten) = true) :
    ∃ l ∈ seg, containsChars P l.data = true := by
  induction seg with
  | nil =>
    rw [List.map_nil, List.flatten_nil, containsChars_nil_of_ne_nil P hP] at h
    exact absurd h (by decide)
  | cons x t ih =>
    rw [List.map_cons, List.flatten_cons, List.append_assoc, List.singleton_append] at h
    rcases containsChars_append_stop P x.data _ '\n' hP hc h with h2 | h2
    · exact ⟨x, List.mem_cons_self x t, h2⟩
    · obtain ⟨l, hl, hl2⟩ := ih h2
      exact ⟨l, List.mem_cons_of_mem x hl, hl2⟩

theorem segmentLog_data (seg : List String) :
    (segmentLog seg).data = (seg.map (fun l => l.data ++ ['\n'])).flatten := by
  unfold segmentLog
  rw [String.data_join, List.map_map]
  rfl

theorem pendingSegments_lines (rest cur : List String)
    (hcur : ∀ l ∈ cur, isSeparator l = false ∧ isSummarizing l = false) :
    ∀ seg ∈ pendingSegments cur rest, ∀ l ∈ seg,
      isSeparator l = false ∧ isSummarizing l = false := by
  induction rest generalizing cur with
  | nil =>
    intro seg hseg
    simp only [pendingSegments, List.takeWhile_nil, List.splitOnP_nil, List.modifyHead_cons,
      List.append_nil, List.any_nil, Bool.false_eq_true, if_false, List.mem_singleton] at hseg
    rw [hseg]
    exact hcur
  | cons x t ih =>
    cases hsum : isSummarizing x
    · cases hsep : isSeparator x
      · rw [pendingSegments_content cur t x hsep hsum]
        apply ih
        intro l hl
        rcases List.mem_append.mp hl with hl | hl
        · exact hcur l hl
        · rw [List.mem_singleton] at hl
          rw [hl]
          exact ⟨hsep, hsum⟩
      · rw [pendingSegments_separator cur t x hsep hsum]
        intro seg hseg
        rcases List.mem_cons.mp hseg with hseg | hseg
        · rw [hseg]
          exact hcur
        · exact ih [] (by simp) seg hseg
    · intro seg hseg
      simp [pendingSegments, hsum, List.splitOnP_nil] at hseg

theorem finalizedSegments_lines (lines : List String) :
    ∀ seg ∈ finalizedSegments lines, ∀ l ∈ seg,
      isSeparator l = false ∧ isSummarizing l = false := by
  induction lines with
  | nil =>
    intro seg hseg
    simp [finalizedSegments] at hseg
  | cons x t ih =>
    rw [finalizedSegments_cons]
    cases hx : isSeparator x
    · simpa using ih
    · simpa using pendingSegments_lines t [] (by simp)

theorem markerStatus_eq_last_marker (seg : List String) :
    markerStatus seg =
      match seg.reverse.find? (fun l => Contains l "[SKIPPED]" || Contains l "[FAILED]") with
      | none => ""
      | some m => if Contains m "[SKIPPED]" then "skip" else "fail" := by
  induction seg using List.reverseRecOn with
  | nil => rfl
  | append_singleton xs x ih =>
    rw [markerStatus_snoc, List.reverse_append, List.reverse_singleton, List.singleton_append,
      List.find?_cons]
    cases hs : Contains x "[SKIPPED]"
    · cases hf : Contains x "[FAILED]"
      · simpa [hs, hf] using ih
      · simp [hs, hf]
    · simp [hs]

theorem fillStatus_scannedCase (seg : List String) :
    fillStatus (scannedCase seg) = specCase seg := by
  have hst : (fillStatus (scannedCase seg)).Status = specStatus seg := by
    rw [fillStatus_scannedCase_Status, markerStatus_eq_last_marker]
    unfold specStatus
    cases seg.reverse.find? (fun l => Contains l "[SKIPPED]" || Contains l "[FAILED]") with
    | none => rfl
    | some m =>
      cases hs : Contains m "[SKIPPED]"
      · simp only [hs, Bool.false_eq_true, if_false]
        rw [if_neg (by decide)]
      · simp only [hs, if_true]
        rw [if_neg (by decide)]
  unfold fillStatus at hst ⊢
  unfold specCase
  by_cases h : (scannedCase seg).Status = ""
  · rw [if_pos h] at hst ⊢
    simp only [scannedCase, segmentLog] at hst ⊢
    rw [← hst]
  · rw [if_neg h] at hst ⊢
    simp only [scannedCase, segmentLog] at hst ⊢
    rw [← hst]

theorem finalizedSegments_no_summary (lines : List String)
    (hsep : ∃ l ∈ lines, isSeparator l = true)
    (hns : ∀ l ∈ lines, isSummarizing l = false) :
    finalizedSegments lines = (afterFirstSeparator lines).splitOnP isSeparator := by
  induction lines with
  | nil => simp at hsep
  | cons x t ih =>
    have ht : ∀ l ∈ t, isSummarizing l = false := fun l hl => hns l (List.mem_cons_of_mem x hl)
    rw [finalizedSegments_cons]
    unfold afterFirstSeparator at ih ⊢
    cases hx : isSeparator x
    · have h2 : ∃ l ∈ t, isSeparator l = true := by
        obtain ⟨l, hl, hc⟩ := hsep
        rcases List.mem_cons.mp hl with rfl | hl
        · rw [hx] at hc
          exact absurd hc (by decide)
        · exact ⟨l, hl, hc⟩
      simp [ih h2 ht, List.dropWhile_cons, hx]
    · have htw : t.takeWhile (fun l => !isSummarizing l) = t := by
        rw [List.takeWhile_eq_self_iff]
        intro l hl
        simp [ht l hl]
      have hany : t.any isSummarizing = false := by
        rw [List.any_eq_false]
        intro l hl
        simp [ht l hl]
      simp [pendingSegments_nil, hany, htw, List.dropWhile_cons, hx]

theorem containsChars_iff (P Z : List Char) : containsChars P Z = true ↔ P <:+: Z := by
  induction Z with
  | nil =>
    cases P with
    | nil => simp [containsChars]
    | cons p P' => simp [containsChars, List.isPrefixOf]
  | cons z Z' ih =>
    rw [containsChars, Bool.or_eq_true, ih, List.isPrefixOf_iff_prefix, List.infix_cons_iff]

theorem quoteFree_of_no_quote (Z : List Char) (h : ∀ c ∈ Z, c ≠ Char.ofNat 34) :
    quoteFree Z = true := by
  have h1 : containsChars [Char.ofNat 34, Char.ofNat 116] Z = false := by
    cases hc : containsChars [Char.ofNat 34, Char.ofNat 116] Z
    · rfl
    · rw [containsChars_iff] at hc
      exact absurd rfl (h _ (hc.subset (List.mem_cons_self _ _)))
  have h2 : (Z.getLast? == some (Char.ofNat 34)) = false := by
    cases hl : Z.getLast? with
    | none => rfl
    | some c =>
      obtain ⟨ys, hys⟩ := List.getLast?_eq_some_iff.mp hl
      have hne : c ≠ Char.ofNat 34 := h c (by rw [hys]; simp)
      simpa using hne
  simp [quoteFree, h1, h2]

theorem containsChars_pair_append (a b : Char) (X Y : List Char)
    (hX : containsChars [a, b] X = false) (hlast : X.getLast? ≠ some a)
    (hY : containsChars [a, b] Y = false) : containsChars [a, b] (X ++ Y) = false := by
  induction X with
  | nil => exact hY
  | cons x X' ih =>
    rw [containsChars, Bool.or_eq_false_iff] at hX
    have hlast2 : X'.getLast? ≠ some a := by
      cases X' with
      | nil => simp
      | cons x2 X2 =>
        intro hl
        apply hlast
        rw [List.getLast?_cons_cons]
        exact hl
    rw [List.cons_append, containsChars, Bool.or_eq_false_iff]
    refine ⟨?_, ih hX.2 hlast2⟩
    cases X' with
    | nil =>
      have hxa : x ≠ a := by
        intro hxa
        apply hlast
        rw [hxa]
        rfl
      have : (a == x) = false := by
        rw [beq_eq_false_iff_ne]
        exact fun e => hxa e.symm
      simp [List.isPrefixOf, this]
    | cons x2 X2 =>
      have h1 := hX.1
      simp only [List.isPrefixOf, List.cons_append] at h1 ⊢
      exact h1

theorem quoteFree_append (X Y : List Char) (hX : quoteFree X = true) (hY : quoteFree Y = true) :
    quoteFree (X ++ Y) = true := by
  unfold quoteFree at hX hY ⊢
  simp only [Bool.and_eq_true, Bool.not_eq_true', beq_eq_false_iff_ne, ne_eq] at hX hY ⊢
  refine ⟨containsChars_pair_append _ _ X Y hX.1 hX.2 hY.1, ?_⟩
  rw [List.getLast?_append]
  cases hl : Y.getLast? with
  | none => simpa using hX.2
  | some c =>
    rw [hl] at hY
    simpa using hY.2

theorem htmlEscapeChar_no_quote (c d : Char) (h : d ∈ htmlEscapeChar c) :
    d ≠ Char.ofNat 34 := by
  unfold htmlEscapeChar at h
  split at h
  · rw [List.mem_singleton] at h
    rw [h]
    decide
  · split at h
    · revert d
      decide
    · split at h
      · revert d
        decide
      · split at h
        · revert d
          decide
        · split at h
          · revert d
            decide
          · split at h
            · revert d
              decide
            · split at h
              · revert d
                decide
              · rw [List.mem_singleton] at h
                rw [h]
                assumption

theorem htmlEscape_no_quote (s : String) : ∀ d ∈ (htmlEscape s).data, d ≠ Char.ofNat 34 := by
  intro d hd
  unfold htmlEscape at hd
  simp only [List.mem_flatten, List.mem_map] at hd
  obtain ⟨l, ⟨c, _, rfl⟩, hdl⟩ := hd
  exact htmlEscapeChar_no_quote c d hdl

theorem digitChar_no_quote (n : Nat) : Nat.digitChar (n % 10) ≠ Char.ofNat 34 := by
  have h : n % 10 < 10 := Nat.mod_lt n (by decide)
  generalize n % 10 = m at h
  interval_cases m <;> decide

theorem toDigitsCore_no_quote (fuel n : Nat) (ds : List Char)
    (h : ∀ c ∈ ds, c ≠ Char.ofNat 34) :
    ∀ c ∈ Nat.toDigitsCore 10 fuel n ds, c ≠ Char.ofNat 34 := by
  induction fuel generalizing n ds with
  | zero => exact h
  | succ f ih =>
    have hcons : ∀ c ∈ Nat.digitChar (n % 10) :: ds, c ≠ Char.ofNat 34 := by
      intro c hc
      rcases List.mem_cons.mp hc with rfl | hc
      · exact digitChar_no_quote _
      · exact h c hc
    unfold Nat.toDigitsCore
    simp only
    split
    · exact hcons
    · exact ih _ _ hcons

theorem toString_no_quote (n : Nat) : ∀ c ∈ (toString n).data, c ≠ Char.ofNat 34 := by
  have h : (toString n).data = Nat.toDigitsCore 10 (n + 1) n [] := rfl
  rw [h]
  exact toDigitsCore_no_quote _ _ _ (by simp)

set_option maxRecDepth 100000 in
theorem header_quoteFree (report : TestReport) (h : ¬ report.FailedTests > 0) :
    quoteFree (generateHTMLReportHeader report).data = true := by
  unfold generateHTMLReportHeader
  rw [if_neg h]
  simp only [String.data_append, List.append_assoc]
  refine quoteFree_append _ _ (by decide) ?_
  refine quoteFree_append _ _ (by decide) ?_
  refine quoteFree_append _ _ (by decide) ?_
  refine quoteFree_append _ _ (quoteFree_of_no_quote _ (htmlEscape_no_quote _)) ?_
  refine quoteFree_append _ _ (by decide) ?_
  refine quoteFree_append _ _ (quoteFree_of_no_quote _ (toString_no_quote _)) ?_
  refine quoteFree_append _ _ (by decide) ?_
  refine quoteFree_append _ _ (quoteFree_of_no_quote _ (toString_no_quote _)) ?_
  refine quoteFree_append _ _ (by decide) ?_
  refine quoteFree_append _ _ (quoteFree_of_no_quote _ (toString_no_quote _)) ?_
  refine quoteFree_append _ _ (by decide) ?_
  refine quoteFree_append _ _ (quoteFree_of_no_quote _ (toString_no_quote _)) ?_
  decide

theorem header_contains_badge (report : TestReport) (h : report.FailedTests > 0) :
    Contains (generateHTMLReportHeader report) failureBadge = true := by
  unfold generateHTMLReportHeader Contains
  rw [if_pos h]
  simp only [String.data_append, List.append_assoc]
  rw [containsChars_iff]
  exact List.infix_append' _ _ _

theorem badge_not_quoteFree (Z : List Char)
    (h : containsChars failureBadge.data Z = true) : quoteFree Z = false := by
  have hpair : [Char.ofNat 34, Char.ofNat 116] <:+: failureBadge.data := by
    rw [← containsChars_iff]
    decide
  have hin : containsChars [Char.ofNat 34, Char.ofNat 116] Z = true := by
    rw [containsChars_iff] at h ⊢
    exact hpair.trans h
  simp [quoteFree, hin]

/-! ## Properties of the report of a list of tokens -/

/-- On the tokens of the scanner: in the report returned by `parseTokens`, `PassedTests` is the number of
test cases whose status is "pass", `FailedTests` the number whose status is "fail"
and `SkippedTests` the number whose status is "skip". -/
theorem tokens_counters_count_statuses (now : String) (lines : List String) :
    (parseTokens now lines).PassedTests =
      (parseTokens now lines).TestCases.countP (fun tc => tc.Status = "pass") ∧
    (parseTokens now lines).FailedTests =
      (parseTokens now lines).TestCases.countP (fun tc => tc.Status = "fail") ∧
    (parseTokens now lines).SkippedTests =
      (parseTokens now lines).TestCases.countP (fun tc => tc.Status = "skip") :=
  parseTokens_Counted now lines

/-- On the tokens of the scanner: the report returned by `parseTokens` satisfies
`TotalTests = PassedTests + FailedTests + SkippedTests`, for every input. -/
theorem tokens_total_is_sum (now : String) (lines : List String) :
    (parseTokens now lines).TotalTests =
      (parseTokens now lines).PassedTests + (parseTokens now lines).FailedTests
        + (parseTokens now lines).SkippedTests := by
  rfl

/-- On the tokens of the scanner: a log none of whose lines contains the separator token gives a report with
no test case and with all four counters zero. -/
theorem tokens_no_separator_no_cases (now : String) (lines : List String)
    (h : ∀ l ∈ lines, Contains l separatorToken = false) :
    (parseTokens now lines).TestCases = [] ∧
    (parseTokens now lines).TotalTests = 0 ∧
    (parseTokens now lines).PassedTests = 0 ∧
    (parseTokens now lines).FailedTests = 0 ∧
    (parseTokens now lines).SkippedTests = 0 := by
  have hskip : skipTokens lines = skipTokens [] := by
    have := skipTokens_append_of_no_separator lines [] h
    simpa using this
  have hrep : parseTokens now lines = parseTokens now [] := by
    unfold parseTokens
    rw [hskip]
  rw [hrep]
  exact ⟨rfl, rfl, rfl, rfl, rfl⟩

/-- On the tokens of the scanner: the lines before the first separator are discarded whatever they contain:
when no line of `p` contains the separator token, the report of `p ++ r` is the
report of `r` (same test cases, same four counters). -/
theorem tokens_preamble_discarded (now : String) (p r : List String)
    (hp : ∀ l ∈ p, Contains l separatorToken = false) :
    parseTokens now (p ++ r) = parseTokens now r := by
  unfold parseTokens
  rw [skipTokens_append_of_no_separator p r hp]

/-- On the tokens of the scanner: once a line containing "Summarizing" was met in segment-scanning mode no
segment is added any more.  When `pre` has a separator line and `s` contains
"Summarizing", the report of `pre ++ [s] ++ post` is the report of `pre ++ [s]`
(same test cases, same counters), whatever `post` is; and a log of three segments,
each closed by a separator, then a "Summarizing" line, a separator and one more
segment, has exactly three test cases. -/
theorem tokens_summarizing_is_sticky (now : String) (pre post : List String) (s : String)
    (hpre : ∃ l ∈ pre, Contains l separatorToken = true)
    (hs : Contains s "Summarizing" = true) :
    parseTokens now (pre ++ [s] ++ post) = parseTokens now (pre ++ [s]) ∧
    (parseTokens now [separatorToken, "first", separatorToken, "second [FAILED]",
      separatorToken, "third", separatorToken, "Summarizing 1 Failure", separatorToken,
      "fourth"]).TestCases.length = 3 := by
  constructor
  · unfold parseTokens
    rw [List.append_assoc, skipTokens_append_of_separator pre _ hpre,
      skipTokens_append_of_separator pre _ hpre]
    simp only [List.foldl_append, List.foldl_cons, List.foldl_nil]
    have h1 := scanLine_isSummarizing
      ((skipTokens pre).2.foldl scanLine (initialState now true)) s hs
    have h2 := scan_summarizing post _ h1.1
    rw [saveCase_summarizing _ h2.1, saveCase_summarizing _ h1.1, h2.2]
  · rw [parseTokens_TestCases, finalizedSegments_after_summary]
    rfl

/-- On the tokens of the scanner: a finalized segment with no content line gives a test case with title "",
status "pass" and log content "".  When the separator `s` is followed at once by
another separator line, or is the last line of the log, and no line up to there
contains "Summarizing", the case opened by `s` (its index is the number of
separator lines before `s`) is that empty case. -/
theorem tokens_empty_segment_case (now : String) (a tail : List String) (s : String)
    (hs : isSeparator s = true)
    (hsum : ∀ l ∈ a ++ [s], isSummarizing l = false)
    (htail : tail = [] ∨
      ∃ s2 t, tail = s2 :: t ∧ isSeparator s2 = true ∧ isSummarizing s2 = false) :
    (parseTokens now (a ++ s :: tail)).TestCases[a.countP isSeparator]? =
      some { Title := "", Status := "pass", LogContent := "", HasEnter := false,
             DisplayTime := "" } := by
  have h := finalizedSegments_at_separator a [] tail s hs (by simp) hsum htail
  rw [List.nil_append] at h
  rw [parseTokens_TestCases, List.getElem?_map, h]
  rfl

/-- On the tokens of the scanner: every test case of the report returned by `parseTokens` has a status
that is "pass", "fail" or "skip", never the empty string or another value. -/
theorem tokens_status_is_pass_fail_or_skip (now : String) (lines : List String) (tc : TestCase)
    (h : tc ∈ (parseTokens now lines).TestCases) :
    tc.Status = "pass" ∨ tc.Status = "fail" ∨ tc.Status = "skip" := by
  exact parseTokens_Status now lines tc h

/-- On the tokens of the scanner: the segment in progress when the first "Summarizing" line is met is
discarded as a whole.  When `pre` has a separator line and no line containing
"Summarizing", and `s` contains "Summarizing", the test cases of
`pre ++ [s] ++ post` are the test cases of `pre` without the last one. -/
theorem tokens_summarizing_discards_segment_in_progress (now : String) (pre post : List String)
    (s : String)
    (hpre : ∃ l ∈ pre, Contains l separatorToken = true)
    (hns : ∀ l ∈ pre, Contains l "Summarizing" = false)
    (hs : Contains s "Summarizing" = true) :
    (parseTokens now (pre ++ [s] ++ post)).TestCases =
      (parseTokens now pre).TestCases.dropLast := by
  rw [parseTokens_TestCases, parseTokens_TestCases, List.append_assoc,
    List.singleton_append, finalizedSegments_cut pre post s hpre hns hs, List.map_dropLast]

/-- On the tokens of the scanner: `TotalTests` in the report returned by `parseTokens` is the number of
test cases; and the total accumulated by the increments of the scan (lines 109
and 166) already has the value that the final recomputation assigns. -/
theorem tokens_total_is_number_of_cases (now : String) (lines : List String) :
    (parseTokens now lines).TotalTests = (parseTokens now lines).TestCases.length ∧
    (scanTokensReport now lines).TotalTests = (parseTokens now lines).TotalTests := by
  have hlen : (parseTokens now lines).TotalTests
      = (parseTokens now lines).TestCases.length := by
    obtain ⟨h1, h2, h3⟩ := parseTokens_Counted now lines
    have hsum : (parseTokens now lines).TotalTests =
        (parseTokens now lines).PassedTests + (parseTokens now lines).FailedTests
          + (parseTokens now lines).SkippedTests := rfl
    rw [hsum, h1, h2, h3]
    exact countP_three_statuses _ (parseTokens_Status now lines)
  refine ⟨hlen, ?_⟩
  rw [hlen, parseTokens_TestCases, scanTokensReport_eq, pushCases_TotalTests]
  simp [emptyReport]

/-- On the tokens of the scanner: for a log without a line containing "Summarizing", the number of test
cases is the number of lines that contain the separator token; a log that ends
with a separator line gets a trailing empty case with status "pass"; a log that
is a single separator line gets exactly one case. -/
theorem tokens_cases_count_separators (now : String) (lines : List String)
    (hns : ∀ l ∈ lines, Contains l "Summarizing" = false) :
    (parseTokens now lines).TestCases.length = lines.countP isSeparator ∧
    (∀ (a : List String) (s : String), lines = a ++ [s] → isSeparator s = true →
      (parseTokens now lines).TestCases.getLast? =
        some { Title := "", Status := "pass", LogContent := "", HasEnter := false,
               DisplayTime := "" }) ∧
    (∀ s : String, lines = [s] → isSeparator s = true →
      (parseTokens now lines).TestCases.length = 1) := by
  have hlen : (parseTokens now lines).TestCases.length = lines.countP isSeparator := by
    rw [parseTokens_TestCases, List.length_map, length_finalizedSegments lines hns]
  refine ⟨hlen, ?_, ?_⟩
  · intro a s hl hs
    have hcount : lines.countP isSeparator = a.countP isSeparator + 1 := by
      rw [hl, List.countP_append]
      simp [hs]
    have hseg := finalizedSegments_at_separator a [] [] s hs (by simp)
      (by rw [← hl]; exact hns) (Or.inl rfl)
    rw [List.getLast?_eq_getElem?, hlen, hcount, Nat.add_sub_cancel, parseTokens_TestCases,
      List.getElem?_map, hl]
    rw [List.nil_append] at hseg
    rw [hseg]
    rfl
  · intro s hl hs
    rw [hlen, hl]
    simp [hs]

/-- On the tokens of the scanner: no test case of the report has a log content that contains "Summarizing"
or the separator token: separator lines and the summary block never reach a
reported case.  (This holds for all lines, with or without newline characters.) -/
theorem tokens_log_content_free_of_separator_and_summary (now : String) (lines : List String)
    (tc : TestCase) (h : tc ∈ (parseTokens now lines).TestCases) :
    Contains tc.LogContent "Summarizing" = false ∧
    Contains tc.LogContent separatorToken = false := by
  rw [parseTokens_TestCases, List.mem_map] at h
  obtain ⟨seg, hseg, rfl⟩ := h
  have hlines := finalizedSegments_lines lines seg hseg
  rw [fillStatus_LogContent]
  have hlog : (scannedCase seg).LogContent = segmentLog seg := rfl
  rw [hlog]
  constructor
  · cases hc : Contains (segmentLog seg) "Summarizing"
    · rfl
    · unfold Contains at hc
      rw [segmentLog_data] at hc
      obtain ⟨l, hl, hl2⟩ := containsChars_lines _ seg (by decide) (by decide) hc
      have := (hlines l hl).2
      unfold isSummarizing Contains at this
      rw [this] at hl2
      exact absurd hl2 (by decide)
  · cases hc : Contains (segmentLog seg) separatorToken
    · rfl
    · unfold Contains at hc
      rw [segmentLog_data] at hc
      obtain ⟨l, hl, hl2⟩ := containsChars_lines _ seg (by decide) (by decide) hc
      have := (hlines l hl).1
      unfold isSeparator Contains at this
      rw [this] at hl2
      exact absurd hl2 (by decide)

/-- On the tokens of the scanner: for every log that has a separator line and no line containing
"Summarizing", the test cases of `parseTokens` are, in order, the cases of the
chunks obtained by dropping every line up to and including the first separator
line and splitting the rest at every separator line (empty chunks kept), each
chunk being mapped on its own; so no state passes from one segment to the next. -/
theorem tokens_scan_refines_split_and_map (now : String) (lines : List String)
    (hsep : ∃ l ∈ lines, Contains l separatorToken = true)
    (hns : ∀ l ∈ lines, Contains l "Summarizing" = false) :
    (parseTokens now lines).TestCases = splitAndMap lines := by
  rw [parseTokens_TestCases, finalizedSegments_no_summary lines hsep hns]
  unfold splitAndMap
  apply List.map_congr_left
  intro seg _
  exact fillStatus_scannedCase seg

theorem tooLong_eq_false_iff (l : String) :
    tooLong l = false ↔ l.utf8ByteSize < MaxScanTokenSize := by
  unfold tooLong
  rw [decide_eq_false_iff_not, Nat.not_le]

theorem scanLoop_scanResults (ls : List String) (st : ScanState) :
    scanLoop st (scanResults ls) = (readableTokens ls).foldl scanLine st := by
  induction ls generalizing st with
  | nil => rfl
  | cons l rest ih =>
    cases h : tooLong l
    · simp only [scanResults, readableTokens, h, Bool.false_eq_true, if_false, scanLoop,
        List.foldl_cons, ih]
    · simp only [scanResults, readableTokens, h, if_true, scanLoop, List.foldl_nil]

theorem readableTokens_of_short (ls : List String) (h : ∀ l ∈ ls, tooLong l = false) :
    readableTokens ls = ls.map dropCR := by
  induction ls with
  | nil => rfl
  | cons l rest ih =>
    simp only [readableTokens, h l (List.mem_cons_self l rest), Bool.false_eq_true, if_false,
      List.map_cons, ih (fun x hx => h x (List.mem_cons_of_mem l hx))]

theorem effectiveTokens_of_short (ls : List String) (h : ∀ l ∈ ls, tooLong l = false) :
    effectiveTokens ls = ls.map dropCR := by
  induction ls with
  | nil => rfl
  | cons l rest ih =>
    have hrest : ∀ x ∈ rest, tooLong x = false := fun x hx => h x (List.mem_cons_of_mem l hx)
    simp only [effectiveTokens, h l (List.mem_cons_self l rest), Bool.false_eq_true, if_false,
      List.map_cons, ih hrest, readableTokens_of_short rest hrest]
    split <;> rfl

theorem scanLine_of_not_separator (st : ScanState) (l : String)
    (h : Contains l separatorToken = false) :
    (scanLine st l).report = st.report ∧ (scanLine st l).inTestCase = st.inTestCase := by
  unfold scanLine
  simp only [h, Bool.false_eq_true, if_false]
  split_ifs <;> exact ⟨rfl, rfl⟩

theorem saveCase_of_not_inTestCase (st : ScanState) (h : st.inTestCase = false) :
    saveCase st = st := by
  simp [saveCase, h]

theorem scanTokensReport_cons_of_not_separator (now : String) (t : String) (ts : List String)
    (h : Contains t separatorToken = false) :
    scanTokensReport now (t :: ts) = scanTokensReport now ts := by
  unfold scanTokensReport
  simp only [skipTokens, h, Bool.false_eq_true, if_false]

theorem scanReport_cons_of_not_separator (now : String) (l : String) (rest : List String)
    (hl : tooLong l = false) (h : Contains (dropCR l) separatorToken = false) :
    scanReport now (l :: rest) = scanReport now rest := by
  unfold scanReport
  simp only [scanResults, hl, Bool.false_eq_true, if_false, skipFirstSection, h]

theorem scanReport_eq_tokens (now : String) (lines : List String) :
    scanReport now lines = scanTokensReport now (effectiveTokens lines) := by
  induction lines with
  | nil => rfl
  | cons l rest ih =>
    cases hl : tooLong l
    · cases hsep : Contains (dropCR l) separatorToken
      · rw [scanReport_cons_of_not_separator now l rest hl hsep, ih]
        simp only [effectiveTokens, hl, hsep, Bool.false_eq_true, if_false]
        rw [scanTokensReport_cons_of_not_separator now _ _ hsep]
      · unfold scanReport scanTokensReport
        simp only [scanResults, effectiveTokens, hl, hsep, Bool.false_eq_true, if_false, if_true,
          skipFirstSection, skipTokens, scanLoop_scanResults]
    · unfold scanReport scanTokensReport
      simp only [scanResults, effectiveTokens, hl, if_true, skipFirstSection, scanLoop]
      cases hsep : Contains (bufferedToken l) separatorToken
      · have h1 := scanLine_of_not_separator (initialState now false) (bufferedToken l) hsep
        rw [saveCase_of_not_inTestCase _ h1.2, h1.1]
        simp [skipTokens, saveCase, initialState]
      · cases hsum : Contains (bufferedToken l) "Summarizing" <;>
          simp [scanLine, saveCase, initialState, skipTokens, hsep, hsum]

theorem parseTestReport_eq_tokens (now : String) (lines : List String) :
    parseTestReport now lines = parseTokens now (effectiveTokens lines) := by
  unfold parseTestReport
  rw [scanReport_eq_tokens, parseTokens_scanTokensReport]

theorem parseTestReport_of_short (now : String) (lines : List String)
    (h : ∀ l ∈ lines, l.utf8ByteSize < MaxScanTokenSize) :
    parseTestReport now lines = parseTokens now (lines.map dropCR) := by
  rw [parseTestReport_eq_tokens,
    effectiveTokens_of_short lines (fun l hl => (tooLong_eq_false_iff l).mpr (h l hl))]

theorem containsChars_of_containsChars_left (P X Y : List Char)
    (h : containsChars P X = true) : containsChars P (X ++ Y) = true := by
  rw [containsChars_iff] at h ⊢
  exact h.trans (List.prefix_append X Y).isInfix

theorem containsChars_dropCR (P : List Char) (l : String) (hP : P ≠ [])
    (hcr : Char.ofNat 13 ∉ P) :
    containsChars P (dropCR l).data = containsChars P l.data := by
  unfold dropCR
  split
  · rename_i hlast
    obtain ⟨t, ht⟩ := List.getLast?_eq_some_iff.mp hlast
    have hdrop : l.data.dropLast = t := by rw [ht, List.dropLast_concat]
    show containsChars P l.data.dropLast = containsChars P l.data
    rw [hdrop, ht]
    cases h1 : containsChars P t
    · cases h2 : containsChars P (t ++ [Char.ofNat 13])
      · rfl
      · rcases containsChars_append_stop P t [] (Char.ofNat 13) hP hcr h2 with h3 | h3
        · rw [h1] at h3
          exact absurd h3 (by decide)
        · rw [containsChars_nil_of_ne_nil P hP] at h3
          exact absurd h3 (by decide)
    · exact (containsChars_of_containsChars_left P t _ h1).symm
  · rfl

theorem Contains_dropCR_separator (l : String) :
    Contains (dropCR l) separatorToken = Contains l separatorToken :=
  containsChars_dropCR _ l (by decide) (by decide)

theorem Contains_dropCR_summarizing (l : String) :
    Contains (dropCR l) "Summarizing" = Contains l "Summarizing" :=
  containsChars_dropCR _ l (by decide) (by decide)

theorem takeBytes_initial (n : Nat) (cs : List Char) : takeBytes n cs <+: cs := by
  induction cs generalizing n with
  | nil => exact List.prefix_refl []
  | cons c t ih =>
    unfold takeBytes
    split
    · exact (List.prefix_cons_inj c).mpr (ih _)
    · exact List.nil_prefix

theorem Contains_of_Contains_bufferedToken (l tok : String) (hP : tok.data ≠ [])
    (hcr : Char.ofNat 13 ∉ tok.data) (h : Contains (bufferedToken l) tok = true) :
    Contains l tok = true := by
  unfold Contains bufferedToken at *
  rw [containsChars_dropCR _ _ hP hcr, containsChars_iff] at h
  rw [containsChars_iff]
  exact h.trans (takeBytes_initial _ _).isInfix

theorem effectiveTokens_no_separator (lines : List String)
    (h : ∀ l ∈ lines, Contains l separatorToken = false) :
    ∀ t ∈ effectiveTokens lines, Contains t separatorToken = false := by
  induction lines with
  | nil => simp [effectiveTokens]
  | cons l rest ih =>
    have hl := h l (List.mem_cons_self l rest)
    have hrest := ih (fun x hx => h x (List.mem_cons_of_mem l hx))
    have hbuf : Contains (bufferedToken l) separatorToken = false := by
      cases hc : Contains (bufferedToken l) separatorToken
      · rfl
      · have := Contains_of_Contains_bufferedToken l separatorToken (by decide) (by decide) hc
        rw [hl] at this
        exact absurd this (by decide)
    have hdrop : Contains (dropCR l) separatorToken = false := by
      rw [Contains_dropCR_separator, hl]
    intro t ht
    unfold effectiveTokens at ht
    simp only [hbuf, hdrop, Bool.false_and, Bool.false_eq_true, if_false] at ht
    split at ht
    · simp at ht
    · rcases List.mem_cons.mp ht with rfl | ht
      · exact hdrop
      · exact hrest t ht

theorem readableTokens_append_of_short (t X : List String)
    (h : ∀ l ∈ t, tooLong l = false) :
    readableTokens (t ++ X) = t.map dropCR ++ readableTokens X := by
  induction t with
  | nil => rfl
  | cons x r ih =>
    rw [List.cons_append]
    simp only [readableTokens, h x (List.mem_cons_self x r), Bool.false_eq_true, if_false,
      List.map_cons, List.cons_append, ih (fun y hy => h y (List.mem_cons_of_mem x hy))]

theorem readableTokens_append_of_long (t X : List String)
    (h : ∃ l ∈ t, tooLong l = true) :
    readableTokens (t ++ X) = readableTokens t := by
  induction t with
  | nil => simp at h
  | cons x r ih =>
    rw [List.cons_append]
    cases hx : tooLong x
    · have h2 : ∃ l ∈ r, tooLong l = true := by
        obtain ⟨l, hl, hc⟩ := h
        rcases List.mem_cons.mp hl with rfl | hl
        · rw [hx] at hc
          exact absurd hc (by decide)
        · exact ⟨l, hl, hc⟩
      simp only [readableTokens, hx, Bool.false_eq_true, if_false, ih h2]
    · simp only [readableTokens, hx, if_true]

theorem parseTokens_cons_of_not_separator (now : String) (t : String) (ts : List String)
    (h : Contains t separatorToken = false) :
    parseTokens now (t :: ts) = parseTokens now ts := by
  unfold parseTokens
  simp only [skipTokens, h, Bool.false_eq_true, if_false]

theorem effectiveTokens_sticky (now : String) (pre post : List String) (s : String)
    (hpre : ∃ l ∈ pre, Contains l separatorToken = true)
    (hs : Contains s "Summarizing" = true) :
    parseTokens now (effectiveTokens (pre ++ s :: post)) =
      parseTokens now (effectiveTokens (pre ++ [s])) := by
  induction pre with
  | nil => simp at hpre
  | cons x t ih =>
    rw [List.cons_append, List.cons_append]
    cases hx : tooLong x
    · cases hsep : Contains (dropCR x) separatorToken
      · have h2 : ∃ l ∈ t, Contains l separatorToken = true := by
          obtain ⟨l, hl, hc⟩ := hpre
          rcases List.mem_cons.mp hl with rfl | hl
          · rw [Contains_dropCR_separator, hc] at hsep
            exact absurd hsep (by decide)
          · exact ⟨l, hl, hc⟩
        simp only [effectiveTokens, hx, hsep, Bool.false_eq_true, if_false]
        rw [parseTokens_cons_of_not_separator now _ _ hsep,
          parseTokens_cons_of_not_separator now _ _ hsep]
        exact ih h2
      · simp only [effectiveTokens, hx, hsep, Bool.false_eq_true, if_false, if_true]
        by_cases hlong : ∃ l ∈ t, tooLong l = true
        · rw [readableTokens_append_of_long t _ hlong, readableTokens_append_of_long t _ hlong]
        · have hshort : ∀ l ∈ t, tooLong l = false := by
            intro l hl
            cases hc : tooLong l
            · rfl
            · exact absurd ⟨l, hl, hc⟩ hlong
          rw [readableTokens_append_of_short t _ hshort, readableTokens_append_of_short t _ hshort]
          cases hsl : tooLong s
          · simp only [readableTokens, hsl, Bool.false_eq_true, if_false]
            have hsum : Contains (dropCR s) "Summarizing" = true := by
              rw [Contains_dropCR_summarizing, hs]
            have h3 := (tokens_summarizing_is_sticky now (dropCR x :: t.map dropCR)
              (readableTokens post) (dropCR s) ⟨dropCR x, List.mem_cons_self _ _, hsep⟩ hsum).1
            simpa using h3
          · simp only [readableTokens, hsl, if_true]
    · simp only [effectiveTokens, hx, if_true]

/-! ## Lemmas on long lines -/

theorem utf8Len_replicate (n : Nat) (c : Char) :
    String.utf8Len (List.replicate n c) = n * c.utf8Size := by
  induction n with
  | zero => simp
  | succ k ih =>
    rw [List.replicate_succ, String.utf8Len_cons, ih, Nat.succ_mul]

theorem tooLong_replicate (c : Char) (hc : c.utf8Size = 1) :
    tooLong (String.mk (List.replicate MaxScanTokenSize c)) = true := by
  unfold tooLong
  rw [String.utf8ByteSize_mk, utf8Len_replicate, hc, Nat.mul_one]
  exact decide_eq_true (Nat.le_refl _)

theorem Contains_replicate_false (n : Nat) (c d : Char) (tok : String) (hd : d ∈ tok.data)
    (hdc : d ≠ c) : Contains (String.mk (List.replicate n c)) tok = false := by
  cases h : Contains (String.mk (List.replicate n c)) tok
  · rfl
  · unfold Contains at h
    rw [containsChars_iff] at h
    exact absurd (List.eq_of_mem_replicate (h.subset hd)) hdc

theorem tooLong_longLine : tooLong longLine = true :=
  tooLong_replicate _ (by decide)

theorem longLine_separator : Contains longLine separatorToken = false :=
  Contains_replicate_false _ _ (Char.ofNat 45) _ (by decide) (by decide)

theorem longLine_summarizing : Contains longLine "Summarizing" = false :=
  Contains_replicate_false _ _ (Char.ofNat 83) _ (by decide) (by decide)

theorem longLine_failed : Contains longLine "[FAILED]" = false :=
  Contains_replicate_false _ _ (Char.ofNat 70) _ (by decide) (by decide)

theorem effectiveTokens_append_of_separator (short X : List String)
    (hshort : ∀ l ∈ short, tooLong l = false)
    (hsep : ∃ l ∈ short, Contains l separatorToken = true) :
    effectiveTokens (short ++ X) = short.map dropCR ++ readableTokens X := by
  induction short with
  | nil => simp at hsep
  | cons x t ih =>
    have hx := hshort x (List.mem_cons_self x t)
    have ht : ∀ l ∈ t, tooLong l = false := fun l hl => hshort l (List.mem_cons_of_mem x hl)
    rw [List.cons_append]
    cases hc : Contains (dropCR x) separatorToken
    · have h2 : ∃ l ∈ t, Contains l separatorToken = true := by
        obtain ⟨l, hl, hl2⟩ := hsep
        rcases List.mem_cons.mp hl with rfl | hl
        · rw [Contains_dropCR_separator, hl2] at hc
          exact absurd hc (by decide)
        · exact ⟨l, hl, hl2⟩
      simp only [effectiveTokens, hx, hc, Bool.false_eq_true, if_false, ih ht h2, List.map_cons,
        List.cons_append]
    · simp only [effectiveTokens, hx, hc, Bool.false_eq_true, if_false, if_true,
        readableTokens_append_of_short t X ht, List.map_cons, List.cons_append]

theorem effectiveTokens_append_of_no_separator (p X : List String)
    (hshort : ∀ l ∈ p, tooLong l = false)
    (hsep : ∀ l ∈ p, Contains l separatorToken = false) :
    effectiveTokens (p ++ X) = p.map dropCR ++ effectiveTokens X := by
  induction p with
  | nil => rfl
  | cons x t ih =>
    have hx := hshort x (List.mem_cons_self x t)
    have hc : Contains (dropCR x) separatorToken = false := by
      rw [Contains_dropCR_separator, hsep x (List.mem_cons_self x t)]
    rw [List.cons_append]
    simp only [effectiveTokens, hx, hc, Bool.false_eq_true, if_false, List.map_cons,
      List.cons_append, ih (fun l hl => hshort l (List.mem_cons_of_mem x hl))
        (fun l hl => hsep l (List.mem_cons_of_mem x hl))]

theorem parseTokens_append_of_no_separator (now : String) (p r : List String)
    (hp : ∀ l ∈ p, Contains l separatorToken = false) :
    parseTokens now (p ++ r) = parseTokens now r := by
  unfold parseTokens
  rw [skipTokens_append_of_no_separator p r hp]

/-- A long line met by the second loop ends the input: the report is that of the
lines before it. -/
theorem parseTestReport_stops_at_long_line (now : String) (short rest : List String)
    (long : String) (hshort : ∀ l ∈ short, tooLong l = false)
    (hsep : ∃ l ∈ short, Contains l separatorToken = true) (hlong : tooLong long = true) :
    parseTestReport now (short ++ long :: rest) = parseTestReport now short := by
  rw [parseTestReport_eq_tokens, parseTestReport_eq_tokens,
    effectiveTokens_append_of_separator short _ hshort hsep,
    effectiveTokens_of_short short hshort]
  simp [readableTokens, hlong]

/-- A long line met by the first loop: the report is that of the buffered token
alone, if it is a separator line without "Summarizing", and is empty otherwise. -/
theorem parseTestReport_long_line_first (now : String) (p rest : List String)
    (long : String) (hshort : ∀ l ∈ p, tooLong l = false)
    (hsep : ∀ l ∈ p, Contains l separatorToken = false) (hlong : tooLong long = true) :
    parseTestReport now (p ++ long :: rest) =
      parseTokens now (if Contains (bufferedToken long) separatorToken
          && !Contains (bufferedToken long) "Summarizing" then [bufferedToken long] else []) := by
  rw [parseTestReport_eq_tokens, effectiveTokens_append_of_no_separator p _ hshort hsep,
    parseTokens_append_of_no_separator now _ _ (by
      intro l hl
      obtain ⟨x, hx, rfl⟩ := List.mem_map.mp hl
      rw [Contains_dropCR_separator, hsep x hx])]
  simp only [effectiveTokens, hlong, if_true]

theorem isSeparator_dropCR (l : String) : isSeparator (dropCR l) = isSeparator l :=
  Contains_dropCR_separator l

theorem isSummarizing_dropCR (l : String) : isSummarizing (dropCR l) = isSummarizing l :=
  Contains_dropCR_summarizing l

theorem countP_isSeparator_map_dropCR (ls : List String) :
    (ls.map dropCR).countP isSeparator = ls.countP isSeparator := by
  induction ls with
  | nil => rfl
  | cons x t ih =>
    rw [List.map_cons, List.countP_cons, List.countP_cons, ih, isSeparator_dropCR]

theorem bufferedToken_longLine_separator :
    Contains (bufferedToken longLine) separatorToken = false := by
  cases h : Contains (bufferedToken longLine) separatorToken
  · rfl
  · have h2 := Contains_of_Contains_bufferedToken longLine separatorToken (by decide)
      (by decide) h
    rw [longLine_separator] at h2
    exact absurd h2 (by decide)

theorem cutTrailingLog_report (now : String) :
    parseTestReport now cutTrailingLog = parseTestReport now [separatorToken, "x"] :=
  parseTestReport_stops_at_long_line now [separatorToken, "x"] [separatorToken] longLine
    (by decide) (by decide) tooLong_longLine

theorem cutSeparatorLog_report (now : String) :
    parseTestReport now cutSeparatorLog = parseTestReport now [separatorToken, "one"] :=
  parseTestReport_stops_at_long_line now [separatorToken, "one"] [separatorToken, "two"]
    longLine (by decide) (by decide) tooLong_longLine

theorem cutSummaryLog_report (now : String) (tail : List String) :
    parseTestReport now (cutSummaryLog ++ tail) =
      parseTestReport now [separatorToken, "one", separatorToken, "two"] :=
  parseTestReport_stops_at_long_line now [separatorToken, "one", separatorToken, "two"]
    ([separatorToken, "three"] ++ tail) longLine (by decide) (by decide) tooLong_longLine

theorem cutTrailingLog_countP :
    ([separatorToken, "x", longLine] : List String).countP isSeparator = 1 := by
  have h0 : isSeparator separatorToken = true := by decide
  have h1 : isSeparator "x" = false := by decide
  have h2 : isSeparator longLine = false := longLine_separator
  simp [List.countP_cons, h0, h1, h2]

theorem cutSeparatorLog_countP : cutSeparatorLog.countP isSeparator = 2 := by
  have h0 : isSeparator separatorToken = true := by decide
  have h1 : isSeparator "one" = false := by decide
  have h2 : isSeparator longLine = false := longLine_separator
  have h3 : isSeparator "two" = false := by decide
  simp [cutSeparatorLog, List.countP_cons, h0, h1, h2, h3]

/-! ## Properties of the report -/

/-- C13: the header of the document that `generateHTMLReport` writes contains the
failure badge `<span class="test-result">Failed</span>` if and only if
`FailedTests > 0`; it is absent for a report with `FailedTests = 0` (also when the
timestamp spells the badge) and present for one with `FailedTests = 2`. -/
theorem failure_badge_iff_failed (report : TestReport) :
    (Contains (generateHTMLReportHeader report) failureBadge = true ↔ report.FailedTests > 0) ∧
    Contains (generateHTMLReportHeader greenReport) failureBadge = false ∧
    Contains (generateHTMLReportHeader redReport) failureBadge = true := by
  have hiff : ∀ r : TestReport,
      Contains (generateHTMLReportHeader r) failureBadge = true ↔ r.FailedTests > 0 := by
    intro r
    constructor
    · intro hc
      by_contra hneg
      have h1 := header_quoteFree r hneg
      have h2 := badge_not_quoteFree _ hc
      rw [h1] at h2
      exact absurd h2 (by decide)
    · exact header_contains_badge r
  refine ⟨hiff report, ?_, (hiff redReport).mpr (by decide)⟩
  cases hc : Contains (generateHTMLReportHeader greenReport) failureBadge
  · rfl
  · exact absurd ((hiff greenReport).mp hc) (by decide)

/-- C3: in the report returned by `parseTestReport`, `PassedTests` is the number of
test cases whose status is "pass", `FailedTests` the number whose status is "fail"
and `SkippedTests` the number whose status is "skip". -/
theorem counters_count_statuses (now : String) (lines : List String) :
    (parseTestReport now lines).PassedTests =
      (parseTestReport now lines).TestCases.countP (fun tc => tc.Status = "pass") ∧
    (parseTestReport now lines).FailedTests =
      (parseTestReport now lines).TestCases.countP (fun tc => tc.Status = "fail") ∧
    (parseTestReport now lines).SkippedTests =
      (parseTestReport now lines).TestCases.countP (fun tc => tc.Status = "skip") := by
  rw [parseTestReport_eq_tokens]
  exact parseTokens_Counted now _

/-- C4: the report returned by `parseTestReport` satisfies
`TotalTests = PassedTests + FailedTests + SkippedTests`, for every input. -/
theorem total_is_sum (now : String) (lines : List String) :
    (parseTestReport now lines).TotalTests =
      (parseTestReport now lines).PassedTests + (parseTestReport now lines).FailedTests
        + (parseTestReport now lines).SkippedTests := by
  rfl

/-- C7: a log none of whose lines contains the separator token gives a report with
no test case and with all four counters zero. -/
theorem no_separator_no_cases (now : String) (lines : List String)
    (h : ∀ l ∈ lines, Contains l separatorToken = false) :
    (parseTestReport now lines).TestCases = [] ∧
    (parseTestReport now lines).TotalTests = 0 ∧
    (parseTestReport now lines).PassedTests = 0 ∧
    (parseTestReport now lines).FailedTests = 0 ∧
    (parseTestReport now lines).SkippedTests = 0 := by
  rw [parseTestReport_eq_tokens]
  exact tokens_no_separator_no_cases now _ (effectiveTokens_no_separator lines h)

theorem no_separator_no_cases_witness :
    (∀ l ∈ ["Running Suite", "Random Seed: 42", "[FAILED] Summarizing > Enter"],
        Contains l separatorToken = false) ∧
    (parseTestReport "2024-01-01 00:00:00"
        ["Running Suite", "Random Seed: 42", "[FAILED] Summarizing > Enter"]).TestCases = [] ∧
    (parseTestReport "2024-01-01 00:00:00"
        ["Running Suite", "Random Seed: 42", "[FAILED] Summarizing > Enter"]).TotalTests = 0 ∧
    (parseTestReport "2024-01-01 00:00:00"
        ["Running Suite", "Random Seed: 42", "[FAILED] Summarizing > Enter"]).PassedTests = 0 ∧
    (parseTestReport "2024-01-01 00:00:00"
        ["Running Suite", "Random Seed: 42", "[FAILED] Summarizing > Enter"]).FailedTests = 0 ∧
    (parseTestReport "2024-01-01 00:00:00"
        ["Running Suite", "Random Seed: 42", "[FAILED] Summarizing > Enter"]).SkippedTests = 0 :=
  ⟨by decide, no_separator_no_cases _ _ (by decide)⟩

/-- C5: once a line containing "Summarizing" was met in segment-scanning mode no
segment is added any more.  When `pre` has a separator line and `s` contains
"Summarizing", the report of `pre ++ [s] ++ post` is the report of `pre ++ [s]`
(same test cases, same counters), whatever `post` is; and a log of three segments,
each closed by a separator, then a "Summarizing" line, a separator and one more
segment, has exactly three test cases. -/
theorem summarizing_is_sticky (now : String) (pre post : List String) (s : String)
    (hpre : ∃ l ∈ pre, Contains l separatorToken = true)
    (hs : Contains s "Summarizing" = true) :
    parseTestReport now (pre ++ [s] ++ post) = parseTestReport now (pre ++ [s]) ∧
    (parseTestReport now [separatorToken, "first", separatorToken, "second [FAILED]",
      separatorToken, "third", separatorToken, "Summarizing 1 Failure", separatorToken,
      "fourth"]).TestCases.length = 3 := by
  constructor
  · rw [parseTestReport_eq_tokens, parseTestReport_eq_tokens, List.append_assoc,
      List.singleton_append]
    exact effectiveTokens_sticky now pre post s hpre hs
  · rw [parseTestReport_of_short now _ (by decide)]
    have hmap : ([separatorToken, "first", separatorToken, "second [FAILED]",
        separatorToken, "third", separatorToken, "Summarizing 1 Failure", separatorToken,
        "fourth"] : List String).map dropCR = [separatorToken, "first", separatorToken,
        "second [FAILED]", separatorToken, "third", separatorToken, "Summarizing 1 Failure",
        separatorToken, "fourth"] := by decide
    rw [hmap]
    exact (tokens_summarizing_is_sticky now [separatorToken] [] "Summarizing"
      ⟨separatorToken, List.mem_singleton.mpr rfl, by decide⟩ (by decide)).2

theorem summarizing_is_sticky_witness :
    (∃ l ∈ ["intro", separatorToken, "one", separatorToken, "two"],
        Contains l separatorToken = true) ∧
    Contains "Summarizing 2 Failures:" "Summarizing" = true ∧
    parseTestReport "t" (["intro", separatorToken, "one", separatorToken, "two"]
        ++ ["Summarizing 2 Failures:"] ++ [separatorToken, "late [FAILED]", separatorToken]) =
      parseTestReport "t" (["intro", separatorToken, "one", separatorToken, "two"]
        ++ ["Summarizing 2 Failures:"]) :=
  ⟨by decide, by decide,
    (summarizing_is_sticky "t" ["intro", separatorToken, "one", separatorToken, "two"]
      [separatorToken, "late [FAILED]", separatorToken] "Summarizing 2 Failures:"
      (by decide) (by decide)).1⟩

/-- C12: every test case of the report returned by `parseTestReport` has a status
that is "pass", "fail" or "skip", never the empty string or another value. -/
theorem status_is_pass_fail_or_skip (now : String) (lines : List String) (tc : TestCase)
    (h : tc ∈ (parseTestReport now lines).TestCases) :
    tc.Status = "pass" ∨ tc.Status = "fail" ∨ tc.Status = "skip" := by
  rw [parseTestReport_eq_tokens] at h
  exact parseTokens_Status now _ tc h

theorem status_is_pass_fail_or_skip_witness :
    ({ Title := "It passes", Status := "pass", LogContent := "It passes\n", HasEnter := false,
       DisplayTime := "" } : TestCase) ∈ (parseTestReport "t" statusLog).TestCases ∧
    ("pass" = "pass" ∨ "pass" = "fail" ∨ "pass" = "skip") :=
  ⟨by decide,
    status_is_pass_fail_or_skip "t" statusLog
      { Title := "It passes", Status := "pass", LogContent := "It passes\n", HasEnter := false,
        DisplayTime := "" } (by decide)⟩

/-- C17: `TotalTests` in the report returned by `parseTestReport` is the number of
test cases; and the total accumulated by the increments of the scan (lines 109
and 166) already has the value that the final recomputation assigns. -/
theorem total_is_number_of_cases (now : String) (lines : List String) :
    (parseTestReport now lines).TotalTests = (parseTestReport now lines).TestCases.length ∧
    (scanReport now lines).TotalTests = (parseTestReport now lines).TotalTests := by
  rw [parseTestReport_eq_tokens, scanReport_eq_tokens]
  exact tokens_total_is_number_of_cases now _

/-- C19: no test case of the report has a log content that contains "Summarizing"
or the separator token: separator lines and the summary block never reach a
reported case.  (This holds for all lines, with or without newline characters.) -/
theorem log_content_free_of_separator_and_summary (now : String) (lines : List String)
    (tc : TestCase) (h : tc ∈ (parseTestReport now lines).TestCases) :
    Contains tc.LogContent "Summarizing" = false ∧
    Contains tc.LogContent separatorToken = false := by
  rw [parseTestReport_eq_tokens] at h
  exact tokens_log_content_free_of_separator_and_summary now _ tc h

theorem log_content_free_of_separator_and_summary_witness :
    ({ Title := "one, ---", Status := "pass", LogContent := "one\n---\n", HasEnter := false,
       DisplayTime := "" } : TestCase) ∈ (parseTestReport "t" leakLog).TestCases ∧
    Contains "one\n---\n" "Summarizing" = false ∧
    Contains "one\n---\n" separatorToken = false :=
  ⟨by decide,
    log_content_free_of_separator_and_summary "t" leakLog
      { Title := "one, ---", Status := "pass", LogContent := "one\n---\n", HasEnter := false,
        DisplayTime := "" } (by decide)⟩

/-- C8, against the claim as stated: the long line has no separator token, and the
log that puts it before a separator and the line "one" has no test case, while the
log without it has one: the first loop ends at the long line. -/
theorem long_preamble_line_loses_cases :
    (∀ l ∈ [longLine], Contains l separatorToken = false) ∧
    (parseTestReport "t" ([longLine] ++ [separatorToken, "one"])).TestCases = [] ∧
    (parseTestReport "t" [separatorToken, "one"]).TestCases =
      [{ Title := "one", Status := "pass", LogContent := "one\n", HasEnter := false,
         DisplayTime := "" }] := by
  refine ⟨?_, ?_, by decide⟩
  · intro l hl
    rw [List.mem_singleton] at hl
    rw [hl]
    exact longLine_separator
  · have h := parseTestReport_long_line_first "t" [] [separatorToken, "one"] longLine
      (by simp) (by simp) tooLong_longLine
    rw [bufferedToken_longLine_separator] at h
    have h2 : parseTestReport "t" ([longLine] ++ [separatorToken, "one"])
        = parseTokens "t" [] := h
    rw [h2]
    rfl

/-- C8, amended: the lines before the first separator are discarded whatever they
contain, as long as each is shorter than 65536 bytes: when no line of `p` contains
the separator token and every line of `p` is shorter than 65536 bytes, the report
of `p ++ r` is the report of `r` (same test cases, same four counters). -/
theorem preamble_discarded (now : String) (p r : List String)
    (hp : ∀ l ∈ p, Contains l separatorToken = false)
    (hlen : ∀ l ∈ p, l.utf8ByteSize < MaxScanTokenSize) :
    parseTestReport now (p ++ r) = parseTestReport now r := by
  rw [parseTestReport_eq_tokens, parseTestReport_eq_tokens,
    effectiveTokens_append_of_no_separator p r
      (fun l hl => (tooLong_eq_false_iff l).mpr (hlen l hl)) hp]
  apply parseTokens_append_of_no_separator
  intro l hl
  obtain ⟨x, hx, rfl⟩ := List.mem_map.mp hl
  rw [Contains_dropCR_separator, hp x hx]

theorem preamble_discarded_witness :
    (∀ l ∈ ["Summarizing 1 Failure", "[FAILED] x", "[SKIPPED] y", "> Enter z"],
        Contains l separatorToken = false) ∧
    (∀ l ∈ ["Summarizing 1 Failure", "[FAILED] x", "[SKIPPED] y", "> Enter z"],
        l.utf8ByteSize < MaxScanTokenSize) ∧
    parseTestReport "t" (["Summarizing 1 Failure", "[FAILED] x", "[SKIPPED] y", "> Enter z"]
        ++ [separatorToken, "case one", separatorToken, "case two [FAILED]"]) =
      parseTestReport "t" [separatorToken, "case one", separatorToken, "case two [FAILED]"] :=
  ⟨by decide, by decide, preamble_discarded _ _ _ (by decide) (by decide)⟩

/-- C10, against the claim as stated: `cutTrailingLog` ends with a separator line
and has no line containing "Summarizing", so the segment of its last line has no
content line; the report has the single case of the line "x" and no case at the
index of that segment, and no empty case at all. -/
theorem long_line_loses_empty_segment :
    isSeparator separatorToken = true ∧
    (∀ l ∈ [separatorToken, "x", longLine] ++ [separatorToken], isSummarizing l = false) ∧
    (parseTestReport "t" ([separatorToken, "x", longLine] ++ separatorToken :: [])).TestCases =
      [{ Title := "x", Status := "pass", LogContent := "x\n", HasEnter := false,
         DisplayTime := "" }] ∧
    (parseTestReport "t" ([separatorToken, "x", longLine] ++ separatorToken :: [])).TestCases[
        ([separatorToken, "x", longLine] : List String).countP isSeparator]? = none := by
  have hcases : (parseTestReport "t"
      ([separatorToken, "x", longLine] ++ separatorToken :: [])).TestCases =
      [{ Title := "x", Status := "pass", LogContent := "x\n", HasEnter := false,
         DisplayTime := "" }] := by
    have h := cutTrailingLog_report "t"
    unfold cutTrailingLog at h
    have h2 : parseTestReport "t" ([separatorToken, "x", longLine] ++ separatorToken :: [])
        = parseTestReport "t" [separatorToken, "x"] := h
    rw [h2]
    decide
  refine ⟨by decide, ?_, hcases, ?_⟩
  · intro l hl
    simp only [List.cons_append, List.nil_append, List.mem_cons, List.mem_singleton,
      List.not_mem_nil, or_false] at hl
    rcases hl with rfl | rfl | rfl | rfl
    · decide
    · decide
    · exact longLine_summarizing
    · decide
  · rw [hcases, cutTrailingLog_countP]
    rfl

/-- C10, amended: a finalized segment with no content line gives a test case with
title "", status "pass" and log content "".  When the separator `s` is followed at
once by another separator line, or is the last line of the log, no line up to there
contains "Summarizing", and every line up to and including the closing separator is
shorter than 65536 bytes, the case opened by `s` (its index is the number of
separator lines before `s`) is that empty case. -/
theorem empty_segment_case (now : String) (a tail : List String) (s : String)
    (hs : isSeparator s = true)
    (hsum : ∀ l ∈ a ++ [s], isSummarizing l = false)
    (hlen : ∀ l ∈ a ++ [s], l.utf8ByteSize < MaxScanTokenSize)
    (htail : tail = [] ∨
      ∃ s2 t, tail = s2 :: t ∧ isSeparator s2 = true ∧ isSummarizing s2 = false ∧
        s2.utf8ByteSize < MaxScanTokenSize) :
    (parseTestReport now (a ++ s :: tail)).TestCases[a.countP isSeparator]? =
      some { Title := "", Status := "pass", LogContent := "", HasEnter := false,
             DisplayTime := "" } := by
  have hshort : ∀ l ∈ a ++ [s], tooLong l = false :=
    fun l hl => (tooLong_eq_false_iff l).mpr (hlen l hl)
  have hsep : ∃ l ∈ a ++ [s], Contains l separatorToken = true := ⟨s, by simp, hs⟩
  have hsplit : a ++ s :: tail = (a ++ [s]) ++ tail := by simp
  rw [parseTestReport_eq_tokens, hsplit, effectiveTokens_append_of_separator _ tail hshort hsep,
    List.map_append, List.map_singleton, List.append_assoc, List.singleton_append,
    ← countP_isSeparator_map_dropCR a]
  apply tokens_empty_segment_case now (a.map dropCR) (readableTokens tail) (dropCR s)
  · rw [isSeparator_dropCR, hs]
  · intro l hl
    rw [← List.map_singleton, ← List.map_append] at hl
    obtain ⟨x, hx, rfl⟩ := List.mem_map.mp hl
    rw [isSummarizing_dropCR, hsum x hx]
  · rcases htail with rfl | ⟨s2, t, rfl, h1, h2, h3⟩
    · exact Or.inl rfl
    · refine Or.inr ⟨dropCR s2, readableTokens t, ?_, ?_, ?_⟩
      · simp [readableTokens, (tooLong_eq_false_iff s2).mpr h3]
      · rw [isSeparator_dropCR, h1]
      · rw [isSummarizing_dropCR, h2]

theorem empty_segment_case_witness :
    isSeparator "------------------------------" = true ∧
    (∀ l ∈ ["intro", separatorToken, "case"] ++ ["------------------------------"],
        isSummarizing l = false) ∧
    (∀ l ∈ ["intro", separatorToken, "case"] ++ ["------------------------------"],
        l.utf8ByteSize < MaxScanTokenSize) ∧
    ([separatorToken, "later"] = [] ∨
      ∃ s2 t, [separatorToken, "later"] = s2 :: t ∧ isSeparator s2 = true ∧
        isSummarizing s2 = false ∧ s2.utf8ByteSize < MaxScanTokenSize) ∧
    (parseTestReport "t" (["intro", separatorToken, "case"] ++
        "------------------------------" :: [separatorToken, "later"])).TestCases[
          (["intro", separatorToken, "case"] : List String).countP isSeparator]? =
      some { Title := "", Status := "pass", LogContent := "", HasEnter := false,
             DisplayTime := "" } :=
  ⟨by decide, by decide, by decide,
    Or.inr ⟨separatorToken, ["later"], rfl, by decide, by decide, by decide⟩,
    empty_segment_case "t" ["intro", separatorToken, "case"] [separatorToken, "later"]
      "------------------------------" (by decide) (by decide) (by decide)
      (Or.inr ⟨separatorToken, ["later"], rfl, by decide, by decide, by decide⟩)⟩

/-- C14, against the claim as stated: `cutSummaryLog` has a separator line and no
line containing "Summarizing"; with a "Summarizing" line and more lines after it
the report has the same two cases as the report of `cutSummaryLog` alone, not these
cases without the last: the scanner stops at the long line in both logs. -/
theorem long_line_keeps_segment_in_progress :
    (∃ l ∈ cutSummaryLog, Contains l separatorToken = true) ∧
    (∀ l ∈ cutSummaryLog, Contains l "Summarizing" = false) ∧
    Contains "Summarizing 1 Failure:" "Summarizing" = true ∧
    (parseTestReport "t" (cutSummaryLog ++ ["Summarizing 1 Failure:"] ++ ["[FAIL] two"])
      ).TestCases.map TestCase.Title = ["one", "two"] ∧
    (parseTestReport "t" cutSummaryLog).TestCases.dropLast.map TestCase.Title = ["one"] := by
  refine ⟨⟨separatorToken, by simp [cutSummaryLog], by decide⟩, ?_, by decide, ?_, ?_⟩
  · intro l hl
    simp only [cutSummaryLog, List.mem_cons, List.mem_singleton, List.not_mem_nil,
      or_false] at hl
    rcases hl with rfl | rfl | rfl | rfl | rfl | rfl | rfl
    · decide
    · decide
    · decide
    · decide
    · exact longLine_summarizing
    · decide
    · decide
  · rw [List.append_assoc, cutSummaryLog_report]
    decide
  · have h := cutSummaryLog_report "t" []
    rw [List.append_nil] at h
    rw [h]
    decide

/-- C14, amended: the segment in progress when the first "Summarizing" line is met
is discarded as a whole.  When `pre` has a separator line and no line containing
"Summarizing", `s` contains "Summarizing", and the lines of `pre` and `s` are
shorter than 65536 bytes, the test cases of `pre ++ [s] ++ post` are the test cases
of `pre` without the last one. -/
theorem summarizing_discards_segment_in_progress (now : String) (pre post : List String)
    (s : String)
    (hpre : ∃ l ∈ pre, Contains l separatorToken = true)
    (hns : ∀ l ∈ pre, Contains l "Summarizing" = false)
    (hs : Contains s "Summarizing" = true)
    (hlen : ∀ l ∈ pre ++ [s], l.utf8ByteSize < MaxScanTokenSize) :
    (parseTestReport now (pre ++ [s] ++ post)).TestCases =
      (parseTestReport now pre).TestCases.dropLast := by
  have hshort : ∀ l ∈ pre ++ [s], tooLong l = false :=
    fun l hl => (tooLong_eq_false_iff l).mpr (hlen l hl)
  have hsep : ∃ l ∈ pre ++ [s], Contains l separatorToken = true := by
    obtain ⟨l, hl, hc⟩ := hpre
    exact ⟨l, List.mem_append_left _ hl, hc⟩
  rw [parseTestReport_eq_tokens, effectiveTokens_append_of_separator _ post hshort hsep,
    parseTestReport_of_short now pre (fun l hl => hlen l (List.mem_append_left _ hl)),
    List.map_append, List.map_singleton]
  apply tokens_summarizing_discards_segment_in_progress now (pre.map dropCR)
    (readableTokens post) (dropCR s)
  · obtain ⟨l, hl, hc⟩ := hpre
    exact ⟨dropCR l, List.mem_map_of_mem _ hl, by rw [Contains_dropCR_separator, hc]⟩
  · intro l hl
    obtain ⟨x, hx, rfl⟩ := List.mem_map.mp hl
    rw [Contains_dropCR_summarizing, hns x hx]
  · rw [Contains_dropCR_summarizing, hs]

theorem summarizing_discards_segment_in_progress_witness :
    (∃ l ∈ summaryLog, Contains l separatorToken = true) ∧
    (∀ l ∈ summaryLog, Contains l "Summarizing" = false) ∧
    Contains "Summarizing 1 Failure:" "Summarizing" = true ∧
    (∀ l ∈ summaryLog ++ ["Summarizing 1 Failure:"], l.utf8ByteSize < MaxScanTokenSize) ∧
    (parseTestReport "t" (summaryLog ++ ["Summarizing 1 Failure:"] ++
        [separatorToken, "[FAIL] two"])).TestCases =
      (parseTestReport "t" summaryLog).TestCases.dropLast :=
  ⟨by decide, by decide, by decide, by decide,
    summarizing_discards_segment_in_progress "t" summaryLog [separatorToken, "[FAIL] two"]
      "Summarizing 1 Failure:" (by decide) (by decide) (by decide) (by decide)⟩

/-- C18, against the claim as stated: `cutSeparatorLog` has no line containing
"Summarizing" and two separator lines, and its report has one test case: the
scanner stops at the long line before the second separator. -/
theorem long_line_loses_separator :
    (∀ l ∈ cutSeparatorLog, Contains l "Summarizing" = false) ∧
    cutSeparatorLog.countP isSeparator = 2 ∧
    (parseTestReport "t" cutSeparatorLog).TestCases.length = 1 := by
  refine ⟨?_, cutSeparatorLog_countP, ?_⟩
  · intro l hl
    simp only [cutSeparatorLog, List.mem_cons, List.mem_singleton, List.not_mem_nil,
      or_false] at hl
    rcases hl with rfl | rfl | rfl | rfl | rfl
    · decide
    · decide
    · exact longLine_summarizing
    · decide
    · decide
  · rw [cutSeparatorLog_report]
    decide

/-- C18, amended: for a log without a line containing "Summarizing" and with every
line shorter than 65536 bytes, the number of test cases is the number of lines that
contain the separator token; a log that ends with a separator line gets a trailing
empty case with status "pass"; a log that is a single separator line gets exactly
one case. -/
theorem cases_count_separators (now : String) (lines : List String)
    (hns : ∀ l ∈ lines, Contains l "Summarizing" = false)
    (hlen : ∀ l ∈ lines, l.utf8ByteSize < MaxScanTokenSize) :
    (parseTestReport now lines).TestCases.length = lines.countP isSeparator ∧
    (∀ (a : List String) (s : String), lines = a ++ [s] → isSeparator s = true →
      (parseTestReport now lines).TestCases.getLast? =
        some { Title := "", Status := "pass", LogContent := "", HasEnter := false,
               DisplayTime := "" }) ∧
    (∀ s : String, lines = [s] → isSeparator s = true →
      (parseTestReport now lines).TestCases.length = 1) := by
  have hns2 : ∀ l ∈ lines.map dropCR, Contains l "Summarizing" = false := by
    intro l hl
    obtain ⟨x, hx, rfl⟩ := List.mem_map.mp hl
    rw [Contains_dropCR_summarizing, hns x hx]
  have h := tokens_cases_count_separators now (lines.map dropCR) hns2
  rw [parseTestReport_of_short now lines hlen]
  refine ⟨?_, ?_, ?_⟩
  · rw [h.1, countP_isSeparator_map_dropCR]
  · intro a s hl hs
    apply h.2.1 (a.map dropCR) (dropCR s)
    · rw [hl, List.map_append, List.map_singleton]
    · rw [isSeparator_dropCR, hs]
  · intro s hl hs
    apply h.2.2 (dropCR s)
    · rw [hl, List.map_singleton]
    · rw [isSeparator_dropCR, hs]

theorem cases_count_separators_witness :
    (∀ l ∈ trailingLog, Contains l "Summarizing" = false) ∧
    (∀ l ∈ trailingLog, l.utf8ByteSize < MaxScanTokenSize) ∧
    (parseTestReport "t" trailingLog).TestCases.length = trailingLog.countP isSeparator ∧
    (∀ (a : List String) (s : String), trailingLog = a ++ [s] → isSeparator s = true →
      (parseTestReport "t" trailingLog).TestCases.getLast? =
        some { Title := "", Status := "pass", LogContent := "", HasEnter := false,
               DisplayTime := "" }) ∧
    (∀ s : String, trailingLog = [s] → isSeparator s = true →
      (parseTestReport "t" trailingLog).TestCases.length = 1) :=
  ⟨by decide, by decide, cases_count_separators "t" trailingLog (by decide) (by decide)⟩

/-- C16, against the claim as stated: the log "Running Suite" has no line
containing "Summarizing"; `parseTestReport` returns no test case for it, while
split-and-map gives the case of one empty chunk.  No function of the lines left
after the first separator can do better: they are the same (none) for this log and
for the log with one separator line more, which has one test case. -/
theorem split_and_map_differs_without_separator :
    (∀ l ∈ ["Running Suite"], Contains l "Summarizing" = false) ∧
    (parseTestReport "t" ["Running Suite"]).TestCases = [] ∧
    splitAndMap (["Running Suite"].map dropCR) =
      [{ Title := "", Status := "pass", LogContent := "", HasEnter := false,
         DisplayTime := "" }] ∧
    (parseTestReport "t" ["Running Suite"]).TestCases
      ≠ splitAndMap (["Running Suite"].map dropCR) ∧
    afterFirstSeparator (["Running Suite"].map dropCR)
      = afterFirstSeparator (["Running Suite", separatorToken].map dropCR) ∧
    (parseTestReport "t" ["Running Suite"]).TestCases ≠
      (parseTestReport "t" ["Running Suite", separatorToken]).TestCases := by
  decide

/-- C16, amended: for every log that has a separator line, no line containing
"Summarizing" and only lines shorter than 65536 bytes, the test cases of
`parseTestReport` are, in order, the cases of the chunks obtained by dropping every
line up to and including the first separator line and splitting the rest at every
separator line (empty chunks kept), each chunk being mapped on its own; so no state
passes from one segment to the next. -/
theorem scan_refines_split_and_map (now : String) (lines : List String)
    (hsep : ∃ l ∈ lines, Contains l separatorToken = true)
    (hns : ∀ l ∈ lines, Contains l "Summarizing" = false)
    (hlen : ∀ l ∈ lines, l.utf8ByteSize < MaxScanTokenSize) :
    (parseTestReport now lines).TestCases = splitAndMap (lines.map dropCR) := by
  rw [parseTestReport_of_short now lines hlen]
  apply tokens_scan_refines_split_and_map
  · obtain ⟨l, hl, hc⟩ := hsep
    exact ⟨dropCR l, List.mem_map_of_mem _ hl, by rw [Contains_dropCR_separator, hc]⟩
  · intro l hl
    obtain ⟨x, hx, rfl⟩ := List.mem_map.mp hl
    rw [Contains_dropCR_summarizing, hns x hx]

theorem scan_refines_split_and_map_witness :
    (∃ l ∈ refinementLog, Contains l separatorToken = true) ∧
    (∀ l ∈ refinementLog, Contains l "Summarizing" = false) ∧
    (∀ l ∈ refinementLog, l.utf8ByteSize < MaxScanTokenSize) ∧
    (parseTestReport "t" refinementLog).TestCases = splitAndMap (refinementLog.map dropCR) ∧
    splitAndMap (refinementLog.map dropCR) =
      [{ Title := "A [FAILED]", Status := "fail", LogContent := "A [FAILED]\n> Enter\nbody\n",
         HasEnter := true, DisplayTime := "" },
       { Title := "", Status := "pass", LogContent := "\n", HasEnter := false,
         DisplayTime := "" },
       { Title := "B", Status := "skip", LogContent := "B\n[SKIPPED] later\n",
         HasEnter := false, DisplayTime := "" }] :=
  ⟨by decide, by decide, by decide,
    scan_refines_split_and_map "t" refinementLog (by decide) (by decide) (by decide),
    by decide⟩

end GinkgoToHtml
